import Mathlib

/-!
# Verification of the gallery-utils import/promotion pipeline

A shallow embedding of the `techxplorer/gallery-utils` source (the
`ImportPhotos`, `PhotoPages` and `Utils` classes) together with proofs about
the embedded operations.  JavaScript `Map` objects are modelled as
association lists in insertion order, JavaScript strings as Lean `String`
(lists of characters), epoch timestamps as `Int` seconds, and the ambient
system time zone as an explicit UTC-offset-in-minutes parameter.  Fallible
operations return `Except JsError`.
-/

namespace GalleryUtils

/-! ## Association lists: the model of JavaScript `Map`

A JavaScript `Map` preserves insertion order; `set` of an existing key keeps
the entry position, `set` of a fresh key appends, `delete` removes the entry.
-/

/-- `Map.get`: the value of the first (in a well-formed map, only) entry with
the given key. -/
def alistGet {β : Type} : List (String × β) → String → Option β
  | [], _ => none
  | (k, v) :: rest, key => if k = key then some v else alistGet rest key

/-- `Map.has`. -/
def alistHas {β : Type} (m : List (String × β)) (key : String) : Bool :=
  (alistGet m key).isSome

/-- `Map.set`: replace in place when the key is present, append otherwise. -/
def alistSet {β : Type} : List (String × β) → String → β → List (String × β)
  | [], key, v => [(key, v)]
  | (k, w) :: rest, key, v =>
    if k = key then (key, v) :: rest else (k, w) :: alistSet rest key v

/-- `Map.delete`: remove the entry with the given key. -/
def alistDelete {β : Type} : List (String × β) → String → List (String × β)
  | [], _ => []
  | (k, v) :: rest, key => if k = key then rest else (k, v) :: alistDelete rest key

/-! ## Character and string utilities -/

/-- Helper for the string functions: `p` is a prefix of `l`. -/
def isPrefixCh : List Char → List Char → Bool
  | [], _ => true
  | _ :: _, [] => false
  | a :: as, b :: bs => a == b && isPrefixCh as bs

/-- Helper for `strIncludes`: `needle` occurs as a contiguous run in the
second argument. -/
def listIncludes (needle : List Char) : List Char → Bool
  | [] => needle.isEmpty
  | c :: rest => isPrefixCh needle (c :: rest) || listIncludes needle rest

/-- JavaScript `hay.includes(needle)`: literal substring test
(`photo.title.includes( tag )` in `buildImportList`). -/
def strIncludes (hay needle : String) : Bool :=
  listIncludes needle.toList hay.toList

/-- The character class `[a-zA-Z0-9_]` of the hashtag regular expression in
`Utils.getTags` (src/src/Utils.js line 92). -/
def isWordChar (c : Char) : Bool :=
  ('a' ≤ c && c ≤ 'z') || ('A' ≤ c && c ≤ 'Z') || ('0' ≤ c && c ≤ '9') || c == '_'

/-- The scan performed by `text.matchAll( /#+([a-zA-Z0-9_]+)/g )` in
`Utils.getTags`: at the first `#` of a run of hashes followed by at least one
word character, the full match (`match[0]`) is the whole hash run plus the
maximal word-character run, and the captured group (`match[1]`) is the word
run; scanning resumes after the match.  A hash run not followed by a word
character matches nothing (greedy `#+` can only backtrack onto `#`, which is
not a word character).  `fuel` is an upper bound on the number of steps; it
is instantiated with the length of the text, which suffices because every
step consumes at least one character. -/
def scanTagsF : Nat → List Char → List (List Char × List Char)
  | 0, _ => []
  | _ + 1, [] => []
  | fuel + 1, c :: rest =>
    if c == '#' then
      let hashes := c :: rest.takeWhile (fun ch => ch == '#')
      let afterHashes := rest.dropWhile (fun ch => ch == '#')
      let word := afterHashes.takeWhile isWordChar
      if word.isEmpty then
        scanTagsF fuel rest
      else
        (hashes ++ word, word) :: scanTagsF fuel (afterHashes.drop word.length)
    else
      scanTagsF fuel rest

/-- `Utils.getTags` (src/src/Utils.js lines 83-109): extract hashtag tokens,
with (`stripHash = true`, the capture groups) or without (`stripHash =
false`, the full matches) the leading markers. -/
def getTags (text : String) (stripHash : Bool) : List String :=
  let found := scanTagsF text.toList.length text.toList
  if stripHash then found.map (fun m => String.mk m.2)
  else found.map (fun m => String.mk m.1)

/-! ## Decimal rendering -/

/-- Fixed-width decimal rendering (the value taken modulo `10 ^ width`), as
used by the `yyyy`, `MM`, `dd`, `HH`, `mm`, `ss` tokens of luxon's
`toFormat` for in-range values. -/
def padDigits : Nat → Nat → List Char
  | 0, _ => []
  | w + 1, n => padDigits w (n / 10) ++ [Char.ofNat (48 + n % 10)]

/-- Decimal decoding, inverse of `padDigits` on in-range values. -/
def decodeDigits (l : List Char) : Nat :=
  l.foldl (fun a c => a * 10 + (c.toNat - 48)) 0

/-! ## Proleptic Gregorian calendar

luxon renders a `DateTime` through its civil (year, month, day,
hour, minute, second) fields in the instance's zone.  The conversion between
epoch days and civil dates is the standard era-based algorithm (the one used
by civil-time libraries); `/` on `Int` is Euclidean division, which on
positive divisors is the required floor division.
-/

/-- Numerator of the year-of-era computation for a day-of-era `doe`. -/
def yoeNum (doe : Int) : Int := doe - doe / 1460 + doe / 36524 - doe / 146096

/-- Year of era (0..399) of a day-of-era (0..146096). -/
def yoeAt (doe : Int) : Int := yoeNum doe / 365

/-- First day-of-era of the (March-based) year-of-era `y`. -/
def dstart (y : Int) : Int := 365 * y + y / 4 - y / 100

/-- Number of days of the (March-based) year-of-era `y` (0..399). -/
def ylen (y : Int) : Int := if y = 399 then 366 else dstart (y + 1) - dstart y

/-- Civil date of the day-of-era `doe` in the era `era`. -/
def civilOfEraDoe (era doe : Int) : Int × Int × Int :=
  let yoe := yoeAt doe
  let y := yoe + era * 400
  let doy := doe - dstart yoe
  let mp := (5 * doy + 2) / 153
  let d := doy - (153 * mp + 2) / 5 + 1
  let m := if mp < 10 then mp + 3 else mp - 9
  (if m ≤ 2 then y + 1 else y, m, d)

/-- Civil date (year, month, day) of the day number `z0` (days since
1970-01-01). -/
def civilFromDays (z0 : Int) : Int × Int × Int :=
  let z := z0 + 719468
  let era := z / 146097
  civilOfEraDoe era (z - era * 146097)

/-- Day number (days since 1970-01-01) of a civil date; inverse of
`civilFromDays`. -/
def daysFromCivil (y0 m d : Int) : Int :=
  let y := if m ≤ 2 then y0 - 1 else y0
  let era := y / 400
  let yoe := y - era * 400
  let mp := if m > 2 then m - 3 else m + 9
  let doy := (153 * mp + 2) / 5 + d - 1
  let doe := yoe * 365 + yoe / 4 - yoe / 100 + doy
  era * 146097 + doe - 719468

/-- The `ZZZ` token of luxon's `toFormat`: the numeric UTC offset, sign
followed by two hour digits and two minute digits (`+1030`, `+0000`,
`-0500`). -/
def fmtOffset (offsetMinutes : Int) : List Char :=
  (if offsetMinutes < 0 then '-' else '+')
    :: (padDigits 2 (offsetMinutes.natAbs / 60) ++ padDigits 2 (offsetMinutes.natAbs % 60))

/-- luxon's `DateTime.fromSeconds( ts ).toFormat( "yyyyMMdd-HHmmssZZZ" )` for
a zone with UTC offset `offsetMinutes` (the second `ImportPhotos` variant
uses `.toUTC()`, i.e. `offsetMinutes = 0`): the civil date and time of the
instant in that zone, then the numeric offset. -/
def fmtTs (offsetMinutes ts : Int) : String :=
  let localSeconds := ts + offsetMinutes * 60
  let days := localSeconds / 86400
  let sod := (localSeconds % 86400).toNat
  let c := civilFromDays days
  String.mk (padDigits 4 c.1.toNat ++ padDigits 2 c.2.1.toNat ++ padDigits 2 c.2.2.toNat
    ++ '-' :: (padDigits 2 (sod / 3600) ++ padDigits 2 (sod % 3600 / 60) ++ padDigits 2 (sod % 60))
    ++ fmtOffset offsetMinutes)

/-! ## Node `path` functions (for the POSIX-style paths this program uses:
separator-normalised, no trailing separators) -/

/-- Characters of the base name: everything after the last `/`. -/
def basenameChars (l : List Char) : List Char :=
  (l.reverse.takeWhile (fun c => c != '/')).reverse

/-- `path.basename`. -/
def basename (s : String) : String := String.mk (basenameChars s.toList)

/-- `path.dirname`. -/
def dirname (s : String) : String :=
  let rev := s.toList.reverse.dropWhile (fun c => c != '/')
  if rev.isEmpty then "."
  else if rev.length = 1 then "/"
  else String.mk (rev.drop 1).reverse

/-- `path.extname`: the extension of the base name from its last `.`
(included), empty when there is no dot or the base name starts with its only
dot. -/
def extname (s : String) : String :=
  let base := basenameChars s.toList
  let extRev := base.reverse.takeWhile (fun c => c != '.')
  if extRev.length = base.length then ""
  else if extRev.length + 1 = base.length then ""
  else String.mk ('.' :: extRev.reverse)

/-- `path.join` of two segments, for the shapes this program joins (a root
with no trailing separator and a relative path or file name). -/
def joinPath (a b : String) : String := a ++ "/" ++ b

/-! ## Data model -/

/-- A photo record of the export document (`media.json` /
`content/posts_1.json`).  `uri` is the identity key (`photo.uri` in the
first `ImportPhotos` variant, `photo.path` in the second); `title` is the
free-text caption (`photo.title` / `photo.caption`); `creation_timestamp`
is the capture instant in epoch seconds (`photo.creation_timestamp`; the
second variant stores an ISO string `photo.taken_at` denoting the same
instant); `newPath` is set by `updateExifTags` after processing.  The
geolocation fields only feed the written EXIF tags, which are outside the
scope of the claims, and are omitted. -/
structure Photo where
  uri : String
  title : String
  creation_timestamp : Int
  newPath : Option String
  deriving Repr, DecidableEq

/-- An album parsed from an `index.md` front-matter block by
`getAlbumDetails`.  `date` is the parsed ISO date (year, month, day);
`updated` models the flag set by `updateAlbumDetails` (absent, i.e.
`false`, until set).  The remaining front-matter fields (title, subtitle,
description) and the derived paths are irrelevant to the claims and
omitted. -/
structure Album where
  albumKey : String
  hashtags : List String
  date : Int × Int × Int
  updated : Bool
  deriving Repr, DecidableEq

/-- A thrown JavaScript error: its constructor name and message. -/
structure JsError where
  name : String
  message : String
  deriving Repr, DecidableEq

/-- What `lstatSync` reports for an existing path. -/
inductive FsNode where
  | file
  | dir
  deriving Repr, DecidableEq

/-- The part of the file system visible to `getPhotoList`: the stat results
and the parsed photo records of the export document when it is present. -/
structure MediaFs where
  stat : String → Option FsNode
  photos : List Photo

/-- The import list: album key to (identity key to photo record), both maps
in insertion order. -/
abbrev ImportList := List (String × List (String × Photo))

/-! ## `Utils.testFilePath` and `ImportPhotos.getPhotoList` -/

/-- `Utils.testFilePath` (src/src/Utils.js lines 50-71): `TypeError` when
the argument is missing/empty, the path does not exist, or the path is not
a file. -/
def testFilePath (stat : String → Option FsNode) (filePath : String) : Except JsError Bool :=
  if filePath = "" then
    Except.error ⟨"TypeError", "filePath parameter is required and must be a string"⟩
  else
    match stat filePath with
    | none => Except.error ⟨"TypeError", "specified path not found"⟩
    | some FsNode.dir => Except.error ⟨"TypeError", "specified path must be a file"⟩
    | some FsNode.file => Except.ok true

/-- `ImportPhotos.getPhotoList` (second variant, src/unnamed/part_000 lines
657-674; the first variant at lines 73-87 differs only in the document path
`content/posts_1.json` and a per-record post-processing step): test that the
export document exists, rethrowing any failure as the not-found
`TypeError`, then return its parsed photo records. -/
def getPhotoList (fsys : MediaFs) (inputPath : String) : Except JsError (List Photo) :=
  match testFilePath fsys.stat (joinPath inputPath "media.json") with
  | Except.error _ =>
    Except.error ⟨"TypeError", "media.json file not found in input directory"⟩
  | Except.ok _ => Except.ok fsys.photos

/-- The error classes of the specification's taxonomy (section 7). -/
inductive ErrClass where
  | notFoundError
  | validationError
  | untyped
  deriving Repr, DecidableEq

/-- Modelled from the spec: the source throws plain `TypeError`s and has no
error-class hierarchy, so the spec's error taxonomy (ValidationError /
NotFoundError / MetadataMissingError / IOError, section 7) is not code under
`src/`.  The taxonomy is modelled as a classification of thrown errors by
their messages: absence of an expected file or directory ("not found")
is `NotFoundError`; bad or missing arguments ("parameter ...", "must be
...") are `ValidationError`; everything else is untyped. -/
def errClass (e : JsError) : ErrClass :=
  if strIncludes e.message "not found" then ErrClass.notFoundError
  else if strIncludes e.message "parameter" || strIncludes e.message "must be" then
    ErrClass.validationError
  else ErrClass.untyped

/-! ## `ImportPhotos.filterPhotoList` -/

/-- Instant (epoch seconds) of `DateTime.fromISO( dateString )` for a parsed
civil date, midnight in the zone with UTC offset `offsetMinutes`. -/
def dateToInstant (offsetMinutes : Int) (d : Int × Int × Int) : Int :=
  daysFromCivil d.1 d.2.1 d.2.2 * 86400 - offsetMinutes * 60

/-- `DateTime.toISODate()` of the instant `t` viewed in the zone with UTC
offset `offsetMinutes`: the civil date of the instant in that zone. -/
def instantToDate (offsetMinutes : Int) (t : Int) : Int × Int × Int :=
  civilFromDays ((t + offsetMinutes * 60) / 86400)

/-- `ImportPhotos.filterPhotoList` (src/unnamed/part_000 lines 127-155 and
688-714): keep the records whose capture instant is at or after midnight of
the (already validated) filter date; `takenDateTime >= filterDateTime`
compares the two instants. -/
def filterPhotoList (offsetMinutes : Int) (photoList : List Photo)
    (afterDate : Int × Int × Int) : List Photo :=
  photoList.filter (fun photo =>
    decide (dateToInstant offsetMinutes afterDate ≤ photo.creation_timestamp))

/-! ## `ImportPhotos.buildImportList` -/

/-- The bucket of an album key in an import list (empty when absent). -/
def getBucket (importList : ImportList) (albumKey : String) : List (String × Photo) :=
  (alistGet importList albumKey).getD []

/-- The body of the innermost loop of `buildImportList` for a matching
photo: create the album's bucket if absent, then add the photo under its
identity key unless that key is already present. -/
def addPhotoToAlbum (importList : ImportList) (albumKey : String) (photo : Photo) : ImportList :=
  let bucket := getBucket importList albumKey
  let bucket' := if alistHas bucket photo.uri then bucket else bucket ++ [(photo.uri, photo)]
  alistSet importList albumKey bucket'

/-- `ImportPhotos.buildImportList` (src/unnamed/part_000 lines 285-312 and
765-792): for every album, for every hashtag of the album, for every photo,
if the caption contains the hashtag as a literal substring, add the photo to
the album's bucket keyed by its identity key (first match wins). -/
def buildImportList (photoList : List Photo) (albumList : List Album) : ImportList :=
  albumList.foldl (fun acc album =>
    album.hashtags.foldl (fun acc2 tag =>
      photoList.foldl (fun acc3 photo =>
        if strIncludes photo.title tag then addPhotoToAlbum acc3 album.albumKey photo
        else acc3) acc2) acc) []

/-- Number of entries of a bucket carrying the given identity key. -/
def keyCount (bucket : List (String × Photo)) (u : String) : Nat :=
  bucket.countP (fun e => e.1 == u)

/-- Well-formedness of an import list under construction: every bucket
entry is a photo of the candidate list keyed by its own identity key, and
no bucket holds two entries with the same identity key. -/
def BucketsWF (photoList : List Photo) (acc : ImportList) : Prop :=
  ∀ ak : String, (∀ e ∈ getBucket acc ak, e.1 = e.2.uri ∧ e.2 ∈ photoList) ∧
    ∀ u : String, keyCount (getBucket acc ak) u ≤ 1

/-! ## `ImportPhotos.updateExifTags` -/

/-- `ImportPhotos.updateExifTags` (src/unnamed/part_000 lines 322-404 and
802-870), restricted to its record-level effect: compute the canonical new
file name `<timestamp "yyyyMMdd-HHmmssZZZ">-ig<original extension>` from the
capture instant and rename the tagged copy to it next to the source file;
the record is returned annotated with that path.  The EXIF tag values
written to the image and the backup/restore renames act only on the file
system and are outside the scope of the claims. -/
def updateExifTags (offsetMinutes : Int) (inputPath : String) (photo : Photo) : Photo :=
  let fileExt := extname photo.uri
  let newFileName := fmtTs offsetMinutes photo.creation_timestamp ++ "-ig" ++ fileExt
  let photoPath := joinPath inputPath photo.uri
  let newPhotoPath := joinPath (dirname photoPath) newFileName
  { photo with newPath := some newPhotoPath }

/-! ## `ImportPhotos.importPhotos` -/

/-- The observable actions of one `importPhotos` run: an invocation of the
tag-rewrite/rename operation (`updateExifTags`) for a bucket key, and a copy
of a processed file into an album (`importPhoto`), recorded with the bucket
key being processed and the `newPath` of the record used. -/
inductive Event where
  | update (key : String)
  | copy (albumKey : String) (key : String) (path : Option String)
  deriving Repr, DecidableEq

/-- The mutable state of an `importPhotos` run: the `importCache` and the
trace of actions so far. -/
structure ImportState where
  cache : List (String × Photo)
  events : List Event
  deriving Repr, DecidableEq

/-- The inner loop of `importPhotos` over one album's bucket: on a cache hit
reuse the cached record; on a miss invoke `updateExifTags`; copy the record
into the album; store the processed record (keyed by its own identity
field) only on a miss. -/
def runBucket (offsetMinutes : Int) (inputPath : String) (albumKey : String) :
    List (String × Photo) → ImportState → ImportState
  | [], st => st
  | (key, photo) :: rest, st =>
    match alistGet st.cache key with
    | some cached =>
      runBucket offsetMinutes inputPath albumKey rest
        { cache := st.cache
          events := st.events ++ [Event.copy albumKey key cached.newPath] }
    | none =>
      let processed := updateExifTags offsetMinutes inputPath photo
      runBucket offsetMinutes inputPath albumKey rest
        { cache := alistSet st.cache processed.uri processed
          events := st.events ++ [Event.update key, Event.copy albumKey key processed.newPath] }

/-- `ImportPhotos.importPhotos` (src/unnamed/part_000 lines 471-501 and
913-943): iterate the album keys in order and process every bucket entry,
starting from the empty `importCache` of a fresh command object. -/
def importPhotos (offsetMinutes : Int) (inputPath : String) (importList : ImportList) :
    ImportState :=
  importList.foldl (fun st e => runBucket offsetMinutes inputPath e.1 e.2 st) ⟨[], []⟩

/-- Number of `update` events for the given identity key. -/
def countUpdates (k : String) (events : List Event) : Nat :=
  events.countP (fun e =>
    match e with
    | Event.update key => key == k
    | _ => false)

/-- First photo stored under the key in a bucket. -/
def firstInBucket (k : String) : List (String × Photo) → Option Photo
  | [] => none
  | (key, photo) :: rest => if key = k then some photo else firstInBucket k rest

/-- First photo stored under the key across the buckets of an import list,
in iteration order. -/
def firstPhotoFor (k : String) : ImportList → Option Photo
  | [] => none
  | (_, bucket) :: rest =>
    match firstInBucket k bucket with
    | some p => some p
    | none => firstPhotoFor k rest

/-! ## `ImportPhotos.updateAlbumDetails` -/

/-- The date fold of `updateAlbumDetails`: `if ( photoDate > albumDate )
albumDate = photoDate` over the bucket values, on instants. -/
def photoDateMax (bucket : List (String × Photo)) (init : Int) : Int :=
  bucket.foldl (fun acc e =>
    if acc < e.2.creation_timestamp then e.2.creation_timestamp else acc) init

/-- `ImportPhotos.updateAlbumDetails` (src/unnamed/part_000 lines 205-232):
for every album whose key is in the import list, set the album's date to
`toISODate()` of the latest of the album's current date (at midnight) and
the capture instants of the bucket's photos, and set the `updated` flag. -/
def updateAlbumDetails (offsetMinutes : Int) (albumList : List Album)
    (importList : ImportList) : List Album :=
  albumList.map (fun album =>
    match alistGet importList album.albumKey with
    | none => album
    | some bucket =>
      { album with
          date := instantToDate offsetMinutes
            (photoDateMax bucket (dateToInstant offsetMinutes album.date))
          updated := true })

/-- Day number of a civil date triple. -/
def dayNumber (d : Int × Int × Int) : Int := daysFromCivil d.1 d.2.1 d.2.2

/-- The later of two civil dates (the first on a tie), ordered by day
number. -/
def laterDate (d1 d2 : Int × Int × Int) : Int × Int × Int :=
  if dayNumber d1 < dayNumber d2 then d2 else d1

/-! ## `ImportPhotos.getAlbumDetails`: front-matter extraction -/

/-- The front-matter delimiter `+++`. -/
def marker : List Char := ['+', '+', '+']

/-- Whether the marker occurs at position `i`. -/
def markerAt (content : List Char) (i : Nat) : Bool := isPrefixCh marker (content.drop i)

/-- All positions at which the marker occurs. -/
def occIdx (content : List Char) : List Nat :=
  (List.range content.length).filter (fun i => markerAt content i)

/-- The result of `content.match( /\+\+\+([\s\S]*)\+\+\+/g )` in
`getAlbumDetails` (src/unnamed/part_000 lines 163-193 and 722-752), i.e. the
single overall match of that pattern.  The pattern's leftmost match starts
at the first occurrence `i` of `+++`; `[\s\S]*` is greedy, so the closing
`+++` is the last occurrence `j` with `j ≥ i + 3` (when the last occurrence
overall is closer than that, no position admits a match, because a closing
marker for a later opening would also serve an earlier one).  The match text
spans from `i` to the end of the closing marker. -/
def frontMatterRegexMatch (content : List Char) : Option (List Char) :=
  match (occIdx content).head?, (occIdx content).getLast? with
  | some i, some j =>
    if i + 3 ≤ j then some ((content.drop i).take (j + 3 - i)) else none
  | _, _ => none

/-- `result[ 0 ].replace( /\+\+\+/g, "" )`: remove every (leftmost,
non-overlapping) occurrence of the marker.  `fuel` bounds the number of
steps and is instantiated with the length of the text. -/
def stripMarkers : Nat → List Char → List Char
  | 0, l => l
  | _ + 1, [] => []
  | fuel + 1, c :: rest =>
    if isPrefixCh marker (c :: rest) then stripMarkers fuel ((c :: rest).drop 3)
    else c :: stripMarkers fuel rest

/-- The text that `getAlbumDetails` hands to `toml.parse` for one album
index document: the regex match with all `+++` occurrences removed
(`none` when the document has no match). -/
def frontMatterText (content : String) : Option String :=
  (frontMatterRegexMatch content.toList).map (fun l => String.mk (stripMarkers l.length l))

/-- The content of the first delimited metadata block of a document: the
text strictly between the first occurrence of the marker and the first
occurrence that can close it (the next one at least three characters
later).  This is the specification's reading of the extraction. -/
def firstBlockText (content : String) : Option String :=
  match occIdx content.toList with
  | [] => none
  | i :: rest =>
    match (rest.filter (fun j => decide (i + 3 ≤ j))).head? with
    | some j => some (String.mk ((content.toList.drop (i + 3)).take (j - (i + 3))))
    | none => none

/-! ## `PhotoPages.getExifData` and `PhotoPages.buildTomlFrontMatter` -/

/-- The embedded metadata of a photo file as `PhotoPages.getExifData` reads
it: whether `ExifReader.load` finds metadata at all, and the
`ImageDescription` and `DateTime` EXIF tags (whose `.description` access
throws when the tag is absent). -/
structure ExifFile where
  path : String
  hasMetadata : Bool
  imageDescription : Option String
  dateTime : Option String
  deriving Repr, DecidableEq

/-- The date normalisation of `getExifData`:
`description.substring( 0, 10 ).replace( /:/g, "-" )`, turning the EXIF
`YYYY:MM:DD HH:MM:SS` form into an ISO date. -/
def substringDate (s : String) : String :=
  String.mk ((s.toList.take 10).map (fun c => if c = ':' then '-' else c))

/-- `PhotoPages.getExifData` (src/src/PhotoPages.js lines 197-240): a map
initialised with empty `title`, `date`, `albumname` entries, then filled
from the `ImageDescription` tag, the `DateTime` tag (normalised to an ISO
date), and the name of the directory containing the photo.  A file without
readable metadata raises `MetadataMissingError`; an absent tag makes the
`.description` access throw a `TypeError`. -/
def getExifData (file : ExifFile) : Except JsError (List (String × String)) :=
  let tagMap : List (String × String) := [("title", ""), ("date", ""), ("albumname", "")]
  if file.hasMetadata = false then
    Except.error ⟨"MetadataMissingError", "No Exif data found"⟩
  else
    match file.imageDescription with
    | none => Except.error ⟨"TypeError", "Cannot read properties of undefined"⟩
    | some desc =>
      match file.dateTime with
      | none => Except.error ⟨"TypeError", "Cannot read properties of undefined"⟩
      | some dt =>
        Except.ok (alistSet (alistSet (alistSet tagMap "title" desc)
          "date" (substringDate dt)) "albumname" (basename (dirname file.path)))

/-- `toml.stringify` of `@iarna/toml` for a flat object whose values are all
strings (the only shape `getExifData` produces): one `key = "value"` line
per entry in insertion order.  The claims' values contain no characters that
the library would escape. -/
def tomlStringifyKV (kv : List (String × String)) : String :=
  kv.foldl (fun acc e => acc ++ e.1 ++ " = \"" ++ e.2 ++ "\"\n") ""

/-- `PhotoPages.buildTomlFrontMatter` (src/src/PhotoPages.js lines 249-262):
the stringified tag map wrapped in the `+++` delimiters. -/
def buildTomlFrontMatter (kv : List (String × String)) : String :=
  "+++\n" ++ tomlStringifyKV kv ++ "+++\n"

/-! ## `PhotoPages.filterAlbumPhotos` with an explicit object store

`filterAlbumPhotos` mutates the `Map` it is given and returns that same
object.  To make the aliasing observable, `Map` objects live in a heap
indexed by references, and the operation maps a heap and a reference to the
new heap and the returned reference.
-/

/-- An album photo map: timestamp key to photo path (`buildAlbumMap`'s
result). -/
abbrev PhotoMap := List (String × String)

/-- An object store for `PhotoMap` objects; a reference is an index. -/
abbrev Heap := List PhotoMap

/-- Overwrite the object at a reference. -/
def heapSet (h : Heap) (r : Nat) (m : PhotoMap) : Heap := h.set r m

/-- The loop of `filterAlbumPhotos`:
`galleryPhotos.forEach( element => albumPhotoMap.delete( element ) )`. -/
def deleteKeys (galleryPhotos : List String) (m : PhotoMap) : PhotoMap :=
  galleryPhotos.foldl (fun acc name => alistDelete acc name) m

/-- `PhotoPages.filterAlbumPhotos` (src/src/PhotoPages.js lines 147-161):
delete every gallery entry name from the album photo map in place and
return the same map object. -/
def filterAlbumPhotos (h : Heap) (albumPhotoMapRef : Nat) (galleryPhotos : List String) :
    Heap × Nat :=
  (heapSet h albumPhotoMapRef (deleteKeys galleryPhotos ((h[albumPhotoMapRef]?).getD [])),
    albumPhotoMapRef)

/-! ## Calendar lemmas: `daysFromCivil` inverts `civilFromDays` -/

theorem yoeNum_step (a : Int) (h1 : 0 ≤ a) (h2 : a ≤ 146095) : yoeNum a ≤ yoeNum (a + 1) := by
  unfold yoeNum
  omega

theorem yoeNum_mono_n : ∀ (n : Nat) (a : Int), 0 ≤ a → a + n ≤ 146096 →
    yoeNum a ≤ yoeNum (a + n) := by
  intro n
  induction n with
  | zero => intro a _ _; simp
  | succ k ih =>
    intro a h0 h1
    have hcast : ((k + 1 : Nat) : Int) = (k : Int) + 1 := by push_cast; ring
    rw [hcast] at h1 ⊢
    have h2 := ih a h0 (by omega)
    have h3 : yoeNum (a + k) ≤ yoeNum (a + k + 1) := yoeNum_step (a + k) (by omega) (by omega)
    have h4 : a + ((k : Int) + 1) = a + k + 1 := by ring
    rw [h4]
    exact le_trans h2 h3

theorem yoeAt_mono (a b : Int) (h0 : 0 ≤ a) (hab : a ≤ b) (h1 : b ≤ 146096) :
    yoeAt a ≤ yoeAt b := by
  have hn := yoeNum_mono_n (b - a).toNat a h0 (by omega)
  rw [Int.toNat_of_nonneg (by omega : (0:Int) ≤ b - a)] at hn
  have hba : a + (b - a) = b := by ring
  rw [hba] at hn
  exact Int.ediv_le_ediv (by norm_num) hn

theorem yoeAt_bounds (doe : Int) (h0 : 0 ≤ doe) (h1 : doe ≤ 146096) :
    0 ≤ yoeAt doe ∧ yoeAt doe ≤ 399 := by
  unfold yoeAt yoeNum
  omega

set_option maxRecDepth 2000 in
theorem yoe_endpoints : ∀ y : Nat, y < 400 →
    (yoeAt (dstart y) = y ∧ yoeAt (dstart y + ylen y - 1) = y) := by decide

theorem yoe_end_low (y : Int) (h0 : 0 ≤ y) (h1 : y < 400) : yoeAt (dstart y) = y := by
  have h := (yoe_endpoints y.toNat (by omega)).1
  rwa [Int.toNat_of_nonneg h0] at h

theorem yoe_end_high (y : Int) (h0 : 0 ≤ y) (h1 : y < 400) :
    yoeAt (dstart y + ylen y - 1) = y := by
  have h := (yoe_endpoints y.toNat (by omega)).2
  rwa [Int.toNat_of_nonneg h0] at h

theorem dstart_bound (y : Int) (h0 : 0 ≤ y) (h1 : y ≤ 399) : dstart y ≤ 145731 := by
  unfold dstart
  omega

theorem dstart_yoeAt_le (doe : Int) (h0 : 0 ≤ doe) (h1 : doe ≤ 146096) :
    dstart (yoeAt doe) ≤ doe := by
  by_contra h
  push_neg at h
  obtain ⟨hy0, hy1⟩ := yoeAt_bounds doe h0 h1
  have h1y : 1 ≤ yoeAt doe := by
    by_contra h2
    push_neg at h2
    have h3 : yoeAt doe = 0 := by omega
    rw [h3] at h
    have h4 : dstart 0 = 0 := by decide
    omega
  have hylen : ylen (yoeAt doe - 1) = dstart (yoeAt doe) - dstart (yoeAt doe - 1) := by
    unfold ylen
    rw [if_neg (by omega)]
    ring_nf
  have hend := yoe_end_high (yoeAt doe - 1) (by omega) (by omega)
  rw [hylen] at hend
  have hdsb := dstart_bound (yoeAt doe) hy0 hy1
  have hmono := yoeAt_mono doe
    (dstart (yoeAt doe - 1) + (dstart (yoeAt doe) - dstart (yoeAt doe - 1)) - 1)
    h0 (by omega) (by omega)
  rw [hend] at hmono
  omega

theorem doe_le_dstart_add (doe : Int) (h0 : 0 ≤ doe) (h1 : doe ≤ 146096) :
    doe ≤ dstart (yoeAt doe) + 365 := by
  by_contra h
  push_neg at h
  obtain ⟨hy0, hy1⟩ := yoeAt_bounds doe h0 h1
  by_cases h399 : yoeAt doe = 399
  · have h2 : dstart 399 = 145731 := by decide
    rw [h399, h2] at h
    omega
  · have hstep : dstart (yoeAt doe + 1) ≤ dstart (yoeAt doe) + 366 := by
      unfold dstart
      omega
    have hd0 : 0 ≤ dstart (yoeAt doe + 1) := by
      unfold dstart
      omega
    have hmono := yoeAt_mono (dstart (yoeAt doe + 1)) doe hd0 (by omega) h1
    rw [yoe_end_low (yoeAt doe + 1) (by omega) (by omega)] at hmono
    omega

theorem daysFromCivil_civilOfEraDoe (era doe : Int) (h0 : 0 ≤ doe) (h1 : doe ≤ 146096) :
    daysFromCivil (civilOfEraDoe era doe).1 (civilOfEraDoe era doe).2.1
      (civilOfEraDoe era doe).2.2 = era * 146097 + doe - 719468 := by
  obtain ⟨hy0, hy1⟩ := yoeAt_bounds doe h0 h1
  have hC := dstart_yoeAt_le doe h0 h1
  have hD := doe_le_dstart_add doe h0 h1
  simp only [civilOfEraDoe, daysFromCivil]
  generalize hy : yoeAt doe = y at *
  simp only [dstart] at hC hD ⊢
  have hfg : (y + era * 400) / 400 = era := by omega
  split_ifs <;>
    first
    | omega
    | (ring_nf; rw [hfg]; ring_nf; omega)
    | (ring_nf; rw [hfg]; ring_nf)

theorem daysFromCivil_civilFromDays (z : Int) :
    daysFromCivil (civilFromDays z).1 (civilFromDays z).2.1 (civilFromDays z).2.2 = z := by
  simp only [civilFromDays]
  have h := daysFromCivil_civilOfEraDoe ((z + 719468) / 146097)
    ((z + 719468) - (z + 719468) / 146097 * 146097) (by omega) (by omega)
  rw [h]
  omega

theorem dayNumber_civilFromDays (z : Int) : dayNumber (civilFromDays z) = z :=
  daysFromCivil_civilFromDays z

/-! ## C8: `Utils.getTags` -/

theorem scanTagsF_no_hash : ∀ (fuel : Nat) (l : List Char), (∀ c ∈ l, c ≠ '#') →
    scanTagsF fuel l = [] := by
  intro fuel
  induction fuel with
  | zero => intro l _; rfl
  | succ k ih =>
    intro l h
    match l with
    | [] => rfl
    | c :: rest =>
      have hc : c ≠ '#' := h c (by simp)
      simp only [scanTagsF]
      rw [if_neg (by simpa using hc)]
      exact ih rest (fun x hx => h x (by simp [hx]))

/-- C8: `getTags` with marker-stripping on returns the hashtag tokens
without the leading marker (`["diy", "proud"]` for
`"Great day #diy #proud"`), with marker-stripping off returns them with the
marker (`["#diy", "#proud"]`), and for every text containing no `#` marker
it returns the empty sequence in both modes. -/
theorem getTags_spec :
    getTags "Great day #diy #proud" true = ["diy", "proud"] ∧
    getTags "Great day #diy #proud" false = ["#diy", "#proud"] ∧
    ∀ text : String, (∀ c ∈ text.toList, c ≠ '#') →
      getTags text true = [] ∧ getTags text false = [] := by
  refine ⟨by decide, by decide, ?_⟩
  intro text h
  simp only [String.toList] at h
  have hscan := scanTagsF_no_hash text.length text.data h
  constructor <;> simp [getTags, String.toList, hscan]

theorem getTags_spec_witness :
    getTags "Great day" true = [] ∧ getTags "Great day" false = [] :=
  getTags_spec.2.2 "Great day" (by decide)

/-! ## C5: `getPhotoList` on a missing export document -/

/-- C5: whenever the export's photo-list document is absent from the input
root, `getPhotoList` fails with the not-found error, which the error
taxonomy classifies as `NotFoundError` (not `ValidationError`, not
untyped). -/
theorem getPhotoList_missing_notFound (fsys : MediaFs) (inputPath : String)
    (habs : fsys.stat (joinPath inputPath "media.json") = none) :
    getPhotoList fsys inputPath =
      Except.error ⟨"TypeError", "media.json file not found in input directory"⟩ ∧
    errClass ⟨"TypeError", "media.json file not found in input directory"⟩ =
      ErrClass.notFoundError := by
  constructor
  · simp only [getPhotoList, testFilePath, habs]
    split
    · rfl
    · rename_i a heq
      split_ifs at heq <;> exact Except.noConfusion heq
  · decide

theorem getPhotoList_missing_notFound_witness :
    getPhotoList ⟨fun _ => none, []⟩ "input" =
      Except.error ⟨"TypeError", "media.json file not found in input directory"⟩ ∧
    errClass ⟨"TypeError", "media.json file not found in input directory"⟩ =
      ErrClass.notFoundError :=
  getPhotoList_missing_notFound ⟨fun _ => none, []⟩ "input" rfl

/-! ## C7: `filterPhotoList` -/

/-- C7: `filterPhotoList` returns a new sequence holding exactly the
records whose capture instant is at or after midnight of the filter date
(with multiplicity), in particular a photo captured exactly at that instant
is kept and one captured one second earlier is dropped, and the result is a
sublist of the input (relative order preserved, input untouched). -/
theorem filterPhotoList_boundary_stable (off : Int) (l : List Photo) (d : Int × Int × Int) :
    (filterPhotoList off l d).Sublist l ∧
    (∀ p : Photo, (filterPhotoList off l d).count p =
      if dateToInstant off d ≤ p.creation_timestamp then l.count p else 0) ∧
    (∀ p ∈ l, p.creation_timestamp = dateToInstant off d → p ∈ filterPhotoList off l d) ∧
    (∀ p : Photo, p.creation_timestamp = dateToInstant off d - 1 →
      p ∉ filterPhotoList off l d) := by
  refine ⟨List.filter_sublist l, ?_, ?_, ?_⟩
  · intro p
    by_cases hp : dateToInstant off d ≤ p.creation_timestamp
    · rw [if_pos hp]
      unfold filterPhotoList
      exact List.count_filter (by simpa using hp)
    · rw [if_neg hp]
      rw [List.count_eq_zero]
      intro hmem
      rw [filterPhotoList, List.mem_filter] at hmem
      exact hp (by simpa using hmem.2)
  · intro p hp hts
    rw [filterPhotoList, List.mem_filter]
    exact ⟨hp, by simp [hts]⟩
  · intro p hts hmem
    rw [filterPhotoList, List.mem_filter] at hmem
    have := hmem.2
    simp only [decide_eq_true_eq] at this
    omega

theorem filterPhotoList_boundary_stable_witness :
    (⟨"u", "t", 0, none⟩ : Photo) ∈ filterPhotoList 0 [⟨"u", "t", 0, none⟩] (1970, 1, 1) :=
  (filterPhotoList_boundary_stable 0 [⟨"u", "t", 0, none⟩] (1970, 1, 1)).2.2.1
    ⟨"u", "t", 0, none⟩ (by simp) (by decide)

/-! ## C10: `filterAlbumPhotos` mutates and returns the same map -/

theorem alistGet_eq_none {β : Type} (m : List (String × β)) (key : String)
    (h : ∀ e ∈ m, e.1 ≠ key) : alistGet m key = none := by
  induction m with
  | nil => rfl
  | cons e rest ih =>
    obtain ⟨k, v⟩ := e
    have hk : k ≠ key := h (k, v) (by simp)
    simp only [alistGet, if_neg hk]
    exact ih (fun x hx => h x (by simp [hx]))

theorem alistDelete_sublist {β : Type} (m : List (String × β)) (key : String) :
    (alistDelete m key).Sublist m := by
  induction m with
  | nil => simp [alistDelete]
  | cons e rest ih =>
    obtain ⟨k, v⟩ := e
    simp only [alistDelete]
    split
    · exact List.sublist_cons_self (k, v) rest
    · exact ih.cons₂ (k, v)

theorem alistGet_alistDelete_self {β : Type} (m : List (String × β)) (key : String)
    (hm : m.Pairwise (fun a b => a.1 ≠ b.1)) : alistGet (alistDelete m key) key = none := by
  induction m with
  | nil => rfl
  | cons e rest ih =>
    obtain ⟨k, v⟩ := e
    rw [List.pairwise_cons] at hm
    by_cases hk : k = key
    · simp only [alistDelete, if_pos hk]
      exact alistGet_eq_none rest key (fun x hx => by
        have := hm.1 x hx
        simp only [hk] at this
        exact fun hcon => this (by rw [hcon]))
    · simp only [alistDelete, if_neg hk, alistGet, if_neg hk]
      exact ih hm.2

theorem alistGet_alistDelete_ne {β : Type} (m : List (String × β)) (key k : String)
    (h : k ≠ key) : alistGet (alistDelete m key) k = alistGet m k := by
  induction m with
  | nil => rfl
  | cons e rest ih =>
    obtain ⟨k', v⟩ := e
    by_cases hk' : k' = key
    · simp only [alistDelete, if_pos hk', alistGet]
      rw [if_neg (by rw [hk']; exact fun hcon => h hcon.symm)]
    · simp only [alistDelete, if_neg hk', alistGet]
      split
      · rfl
      · exact ih

theorem alistGet_deleteKeys (g : List String) (m : PhotoMap)
    (hm : m.Pairwise (fun a b => a.1 ≠ b.1)) (k : String) :
    alistGet (deleteKeys g m) k = if k ∈ g then none else alistGet m k := by
  induction g generalizing m with
  | nil => simp [deleteKeys]
  | cons name rest ih =>
    have hm' : (alistDelete m name).Pairwise (fun a b => a.1 ≠ b.1) :=
      List.Pairwise.sublist (alistDelete_sublist m name) hm
    have hstep : deleteKeys (name :: rest) m = deleteKeys rest (alistDelete m name) := rfl
    rw [hstep, ih (alistDelete m name) hm']
    by_cases hk : k ∈ rest
    · simp [hk]
    · by_cases hkn : k = name
      · simp [hk, hkn, alistGet_alistDelete_self m name hm]
      · simp [hk, hkn, alistGet_alistDelete_ne m name k hkn]

/-- C10: `filterAlbumPhotos` returns the very reference it was given, the
object behind that reference now holds the map with every gallery entry
name deleted and every other entry untouched, and no other object in the
store is affected: the caller's map is mutated in place, not copied. -/
theorem filterAlbumPhotos_in_place (h : Heap) (r : Nat) (g : List String) (m : PhotoMap)
    (hr : h[r]? = some m) (hm : m.Pairwise (fun a b => a.1 ≠ b.1)) :
    (filterAlbumPhotos h r g).2 = r ∧
    ((filterAlbumPhotos h r g).1)[r]? = some (deleteKeys g m) ∧
    (∀ k, alistGet (deleteKeys g m) k = if k ∈ g then none else alistGet m k) ∧
    (∀ r' : Nat, r' ≠ r → ((filterAlbumPhotos h r g).1)[r']? = h[r']?) := by
  have hlen : r < h.length := by
    by_contra hcon
    push_neg at hcon
    rw [List.getElem?_eq_none hcon] at hr
    exact Option.noConfusion hr
  refine ⟨rfl, ?_, alistGet_deleteKeys g m hm, ?_⟩
  · have hgetd : (h[r]?).getD [] = m := by rw [hr]; rfl
    simp only [filterAlbumPhotos, heapSet, hgetd]
    rw [List.getElem?_set_self (by simpa using hlen)]
  · intro r' hne
    simp only [filterAlbumPhotos, heapSet]
    rw [List.getElem?_set_ne (fun hcon => hne (by omega))]

theorem filterAlbumPhotos_in_place_witness :
    (filterAlbumPhotos [[("a", "p1"), ("b", "p2")]] 0 ["a"]).2 = 0 ∧
    ((filterAlbumPhotos [[("a", "p1"), ("b", "p2")]] 0 ["a"]).1)[0]? =
      some (deleteKeys ["a"] [("a", "p1"), ("b", "p2")]) ∧
    (∀ k, alistGet (deleteKeys ["a"] [("a", "p1"), ("b", "p2")]) k =
      if k ∈ ["a"] then none else alistGet [("a", "p1"), ("b", "p2")] k) ∧
    (∀ r' : Nat, r' ≠ 0 →
      ((filterAlbumPhotos [[("a", "p1"), ("b", "p2")]] 0 ["a"]).1)[r']? =
        ([[("a", "p1"), ("b", "p2")]] : Heap)[r']?) :=
  filterAlbumPhotos_in_place [[("a", "p1"), ("b", "p2")]] 0 ["a"]
    [("a", "p1"), ("b", "p2")] rfl (by simp)

/-! ## C1: `buildImportList` -/

theorem alistGet_alistSet_self {β : Type} (m : List (String × β)) (key : String) (v : β) :
    alistGet (alistSet m key v) key = some v := by
  induction m with
  | nil => simp [alistSet, alistGet]
  | cons e rest ih =>
    obtain ⟨k, w⟩ := e
    by_cases hk : k = key
    · simp [alistSet, hk, alistGet]
    · simp only [alistSet, if_neg hk, alistGet, if_neg hk]
      exact ih

theorem alistGet_alistSet_ne {β : Type} (m : List (String × β)) (key k : String) (v : β)
    (h : k ≠ key) : alistGet (alistSet m key v) k = alistGet m k := by
  induction m with
  | nil =>
    simp only [alistSet, alistGet]
    rw [if_neg (fun hcon => h hcon.symm)]
  | cons e rest ih =>
    obtain ⟨k', w⟩ := e
    by_cases hk' : k' = key
    · subst hk'
      simp only [alistSet, if_pos rfl, alistGet]
      rw [if_neg (fun hcon => h hcon.symm), if_neg (fun hcon => h hcon.symm)]
    · simp only [alistSet, if_neg hk', alistGet]
      split
      · rfl
      · exact ih

theorem getBucket_addPhoto_self (acc : ImportList) (ak : String) (p : Photo) :
    getBucket (addPhotoToAlbum acc ak p) ak =
      if alistHas (getBucket acc ak) p.uri then getBucket acc ak
      else getBucket acc ak ++ [(p.uri, p)] := by
  simp only [addPhotoToAlbum, getBucket, alistGet_alistSet_self, Option.getD_some]

theorem getBucket_addPhoto_ne (acc : ImportList) (ak ak' : String) (p : Photo)
    (h : ak' ≠ ak) : getBucket (addPhotoToAlbum acc ak p) ak' = getBucket acc ak' := by
  simp only [addPhotoToAlbum, getBucket, alistGet_alistSet_ne _ _ _ _ h]

theorem keyCount_append (b1 b2 : List (String × Photo)) (u : String) :
    keyCount (b1 ++ b2) u = keyCount b1 u + keyCount b2 u := by
  simp [keyCount, List.countP_append]

theorem keyCount_singleton (v : String) (p : Photo) (u : String) :
    keyCount [(v, p)] u = if v = u then 1 else 0 := by
  simp only [keyCount, List.countP_cons, List.countP_nil]
  by_cases h : v = u <;> simp [h]

theorem alistHas_false_keyCount (bucket : List (String × Photo)) (u : String)
    (h : alistHas bucket u = false) : keyCount bucket u = 0 := by
  induction bucket with
  | nil => rfl
  | cons e rest ih =>
    obtain ⟨k, v⟩ := e
    simp only [alistHas, alistGet] at h
    by_cases hk : k = u
    · rw [if_pos hk] at h
      simp at h
    · rw [if_neg hk] at h
      simp only [keyCount, List.countP_cons]
      have h2 : keyCount rest u = 0 := ih (by simpa [alistHas] using h)
      simp only [keyCount] at h2
      simp [h2, hk]

theorem alistHas_true_exists (bucket : List (String × Photo)) (u : String)
    (h : alistHas bucket u = true) : ∃ p, (u, p) ∈ bucket := by
  induction bucket with
  | nil => simp [alistHas, alistGet] at h
  | cons e rest ih =>
    obtain ⟨k, v⟩ := e
    by_cases hk : k = u
    · exact ⟨v, by simp [hk]⟩
    · simp only [alistHas, alistGet, if_neg hk] at h
      obtain ⟨p, hp⟩ := ih (by simpa [alistHas] using h)
      exact ⟨p, by simp [hp]⟩

theorem pairwise_uri_inj (l : List Photo) (hl : l.Pairwise (fun a b => a.uri ≠ b.uri))
    (a b : Photo) (ha : a ∈ l) (hb : b ∈ l) (hab : a.uri = b.uri) : a = b := by
  induction l with
  | nil => cases ha
  | cons x rest ih =>
    rw [List.pairwise_cons] at hl
    rcases List.mem_cons.mp ha with ha1 | ha2 <;> rcases List.mem_cons.mp hb with hb1 | hb2
    · rw [ha1, hb1]
    · exact absurd hab (by rw [ha1]; exact hl.1 b hb2)
    · exact absurd hab.symm (by rw [hb1]; exact hl.1 a ha2)
    · exact ih hl.2 ha2 hb2

theorem bucketsWF_nil (photoList : List Photo) : BucketsWF photoList [] := by
  intro ak
  constructor
  · intro e he
    simp [getBucket, alistGet] at he
  · intro u
    simp [getBucket, alistGet, keyCount]

theorem bucketsWF_addPhoto (photoList : List Photo) (acc : ImportList) (ak : String)
    (p : Photo) (hp : p ∈ photoList) (hwf : BucketsWF photoList acc) :
    BucketsWF photoList (addPhotoToAlbum acc ak p) := by
  intro ak'
  by_cases hk : ak' = ak
  · subst hk
    rw [getBucket_addPhoto_self]
    split
    · exact hwf ak'
    · rename_i hhas
      constructor
      · intro e he
        rcases List.mem_append.mp he with h1 | h2
        · exact (hwf ak').1 e h1
        · simp only [List.mem_singleton] at h2
          subst h2
          exact ⟨rfl, hp⟩
      · intro u
        rw [keyCount_append, keyCount_singleton]
        by_cases hu : p.uri = u
        · subst hu
          rw [alistHas_false_keyCount _ _ (by simpa using hhas)]
          simp
        · have := ((hwf ak').2 u)
          simp [hu]
          omega
  · rw [getBucket_addPhoto_ne _ _ _ _ hk]
    exact hwf ak'

theorem mem_getBucket_addPhoto (acc : ImportList) (ak ak' : String) (p : Photo)
    (e : String × Photo) (he : e ∈ getBucket acc ak') :
    e ∈ getBucket (addPhotoToAlbum acc ak p) ak' := by
  by_cases hk : ak' = ak
  · subst hk
    rw [getBucket_addPhoto_self]
    split
    · exact he
    · exact List.mem_append_left _ he
  · rw [getBucket_addPhoto_ne _ _ _ _ hk]
    exact he

theorem mem_getBucket_addPhoto_self (photoList : List Photo) (acc : ImportList)
    (ak : String) (p : Photo) (hwf : BucketsWF photoList acc) (hp : p ∈ photoList)
    (hdistinct : photoList.Pairwise (fun a b => a.uri ≠ b.uri)) :
    (p.uri, p) ∈ getBucket (addPhotoToAlbum acc ak p) ak := by
  rw [getBucket_addPhoto_self]
  split
  · rename_i hhas
    obtain ⟨q, hq⟩ := alistHas_true_exists _ _ hhas
    have hq' := (hwf ak).1 (p.uri, q) hq
    have hqp : q = p := pairwise_uri_inj photoList hdistinct q p hq'.2 hp hq'.1.symm
    rw [hqp] at hq
    exact hq
  · exact List.mem_append_right _ (by simp)

theorem foldl_inv {α β : Type} (f : α → β → α) (P : α → Prop) :
    ∀ (l : List β) (a : α), P a → (∀ s b, b ∈ l → P s → P (f s b)) → P (l.foldl f a) := by
  intro l
  induction l with
  | nil => intro a ha _; exact ha
  | cons x rest ih =>
    intro a ha hstep
    exact ih (f a x) (hstep a x (by simp) ha)
      (fun s b hb hs => hstep s b (by simp [hb]) hs)

theorem foldl_est {α β : Type} (f : α → β → α) (P Q : α → Prop) :
    ∀ (l : List β) (a : α) (x : β), x ∈ l → P a →
      (∀ s b, b ∈ l → P s → P (f s b)) →
      (∀ s, P s → Q (f s x)) →
      (∀ s b, b ∈ l → Q s → Q (f s b)) →
      Q (l.foldl f a) := by
  intro l
  induction l with
  | nil => intro a x hx; cases hx
  | cons hd rest ih =>
    intro a x hx hPa hP hest hQ
    rcases List.mem_cons.mp hx with heq | hmem
    · subst heq
      exact foldl_inv f Q rest (f a x) (hest a hPa)
        (fun s b hb hs => hQ s b (by simp [hb]) hs)
    · exact ih (f a hd) x hmem (hP a hd (by simp) hPa)
        (fun s b hb hs => hP s b (by simp [hb]) hs) hest
        (fun s b hb hs => hQ s b (by simp [hb]) hs)

/-- C1: a photo whose caption contains one of an album's hashtags as a
literal substring ends up in that album's bucket of `buildImportList`
exactly once, keyed by its identity key, no matter how many hashtags of the
album match or how often a hashtag recurs in the caption; the statement is
universally quantified over the matching albums, so a photo matched by
several albums appears in each of their buckets (fan-out preserved). -/
theorem buildImportList_dedup_fanout (photoList : List Photo) (albumList : List Album)
    (hdistinct : photoList.Pairwise (fun a b => a.uri ≠ b.uri))
    (album : Album) (halbum : album ∈ albumList)
    (photo : Photo) (hphoto : photo ∈ photoList)
    (tag : String) (htag : tag ∈ album.hashtags)
    (hmatch : strIncludes photo.title tag = true) :
    (photo.uri, photo) ∈ getBucket (buildImportList photoList albumList) album.albumKey ∧
    keyCount (getBucket (buildImportList photoList albumList) album.albumKey) photo.uri
      = 1 := by
  have hphotoStep : ∀ (ak : String) (s : ImportList) (b : Photo), b ∈ photoList →
      BucketsWF photoList s →
      BucketsWF photoList (if strIncludes b.title tag = true then addPhotoToAlbum s ak b
        else s) := by
    intro ak s b hb hs
    split
    · exact bucketsWF_addPhoto photoList s ak b hb hs
    · exact hs
  have hQ : BucketsWF photoList (buildImportList photoList albumList) ∧
      (photo.uri, photo) ∈
        getBucket (buildImportList photoList albumList) album.albumKey := by
    unfold buildImportList
    refine foldl_est _ (BucketsWF photoList)
      (fun acc => BucketsWF photoList acc ∧
        (photo.uri, photo) ∈ getBucket acc album.albumKey)
      albumList [] album halbum (bucketsWF_nil photoList) ?_ ?_ ?_
    · -- every album step preserves well-formedness
      intro s b _ hs
      refine foldl_inv _ (BucketsWF photoList) b.hashtags s hs ?_
      intro s2 tag2 _ hs2
      refine foldl_inv _ (BucketsWF photoList) photoList s2 hs2 ?_
      intro s3 ph hph hs3
      split
      · exact bucketsWF_addPhoto photoList s3 b.albumKey ph hph hs3
      · exact hs3
    · -- processing the matching album establishes membership
      intro s hs
      refine foldl_est _ (BucketsWF photoList)
        (fun acc => BucketsWF photoList acc ∧
          (photo.uri, photo) ∈ getBucket acc album.albumKey)
        album.hashtags s tag htag hs ?_ ?_ ?_
      · intro s2 tag2 _ hs2
        refine foldl_inv _ (BucketsWF photoList) photoList s2 hs2 ?_
        intro s3 ph hph hs3
        split
        · exact bucketsWF_addPhoto photoList s3 album.albumKey ph hph hs3
        · exact hs3
      · -- processing the matching tag establishes membership
        intro s2 hs2
        refine foldl_est _ (BucketsWF photoList)
          (fun acc => BucketsWF photoList acc ∧
            (photo.uri, photo) ∈ getBucket acc album.albumKey)
          photoList s2 photo hphoto hs2 ?_ ?_ ?_
        · intro s3 ph hph hs3
          split
          · exact bucketsWF_addPhoto photoList s3 album.albumKey ph hph hs3
          · exact hs3
        · -- processing the matching photo establishes membership
          intro s3 hs3
          rw [if_pos hmatch]
          exact ⟨bucketsWF_addPhoto photoList s3 album.albumKey photo hphoto hs3,
            mem_getBucket_addPhoto_self photoList s3 album.albumKey photo hs3 hphoto
              hdistinct⟩
        · -- later photos preserve membership
          intro s3 ph hph hs3
          split
          · exact ⟨bucketsWF_addPhoto photoList s3 album.albumKey ph hph hs3.1,
              mem_getBucket_addPhoto s3 album.albumKey album.albumKey ph _ hs3.2⟩
          · exact hs3
      · -- later tags preserve membership
        intro s2 tag2 _ hs2
        refine foldl_inv _
          (fun acc => BucketsWF photoList acc ∧
            (photo.uri, photo) ∈ getBucket acc album.albumKey)
          photoList s2 hs2 ?_
        intro s3 ph hph hs3
        split
        · exact ⟨bucketsWF_addPhoto photoList s3 album.albumKey ph hph hs3.1,
            mem_getBucket_addPhoto s3 album.albumKey album.albumKey ph _ hs3.2⟩
        · exact hs3
    · -- later albums preserve membership
      intro s b _ hs
      refine foldl_inv _
        (fun acc => BucketsWF photoList acc ∧
          (photo.uri, photo) ∈ getBucket acc album.albumKey)
        b.hashtags s hs ?_
      intro s2 tag2 _ hs2
      refine foldl_inv _
        (fun acc => BucketsWF photoList acc ∧
          (photo.uri, photo) ∈ getBucket acc album.albumKey)
        photoList s2 hs2 ?_
      intro s3 ph hph hs3
      split
      · exact ⟨bucketsWF_addPhoto photoList s3 b.albumKey ph hph hs3.1,
          mem_getBucket_addPhoto s3 b.albumKey album.albumKey ph _ hs3.2⟩
      · exact hs3
  refine ⟨hQ.2, ?_⟩
  have hle := (hQ.1 album.albumKey).2 photo.uri
  have hpos : 0 < keyCount (getBucket (buildImportList photoList albumList) album.albumKey)
      photo.uri := by
    rw [keyCount, List.countP_pos_iff]
    exact ⟨(photo.uri, photo), hQ.2, by simp⟩
  omega

theorem buildImportList_dedup_fanout_witness :
    ((("u" : String), (⟨"u", "great #diy day", 100, none⟩ : Photo)) ∈
      getBucket (buildImportList [⟨"u", "great #diy day", 100, none⟩]
        [⟨"alb", ["diy"], (2020, 1, 1), false⟩]) "alb") ∧
    keyCount (getBucket (buildImportList [⟨"u", "great #diy day", 100, none⟩]
      [⟨"alb", ["diy"], (2020, 1, 1), false⟩]) "alb") "u" = 1 :=
  buildImportList_dedup_fanout [⟨"u", "great #diy day", 100, none⟩]
    [⟨"alb", ["diy"], (2020, 1, 1), false⟩] (by simp)
    ⟨"alb", ["diy"], (2020, 1, 1), false⟩ (by simp)
    ⟨"u", "great #diy day", 100, none⟩ (by simp)
    "diy" (by simp) (by decide)

/-! ## C4: `updateAlbumDetails` -/

theorem instantToDate_max_step (off a b : Int) :
    instantToDate off (if a < b then b else a) =
      laterDate (instantToDate off a) (instantToDate off b) := by
  have hda : dayNumber (instantToDate off a) = (a + off * 60) / 86400 :=
    dayNumber_civilFromDays _
  have hdb : dayNumber (instantToDate off b) = (b + off * 60) / 86400 :=
    dayNumber_civilFromDays _
  unfold laterDate
  by_cases hab : a < b
  · rw [if_pos hab]
    by_cases hd : dayNumber (instantToDate off a) < dayNumber (instantToDate off b)
    · rw [if_pos hd]
    · rw [if_neg hd]
      have h1 : (a + off * 60) / 86400 ≤ (b + off * 60) / 86400 :=
        Int.ediv_le_ediv (by norm_num) (by omega)
      have heq : (a + off * 60) / 86400 = (b + off * 60) / 86400 := by omega
      unfold instantToDate
      rw [heq]
  · rw [if_neg hab]
    have h1 : (b + off * 60) / 86400 ≤ (a + off * 60) / 86400 :=
      Int.ediv_le_ediv (by norm_num) (by omega)
    rw [if_neg (by omega)]

theorem photoDateMax_toDate (off : Int) (bucket : List (String × Photo)) :
    ∀ t0 : Int, instantToDate off (photoDateMax bucket t0) =
      bucket.foldl (fun d e => laterDate d (instantToDate off e.2.creation_timestamp))
        (instantToDate off t0) := by
  induction bucket with
  | nil => intro t0; rfl
  | cons e rest ih =>
    intro t0
    simp only [photoDateMax, List.foldl_cons]
    have hstep := ih (if t0 < e.2.creation_timestamp then e.2.creation_timestamp else t0)
    simp only [photoDateMax] at hstep
    rw [hstep, instantToDate_max_step]

theorem dayNumber_laterDate (d1 d2 : Int × Int × Int) :
    dayNumber (laterDate d1 d2) = max (dayNumber d1) (dayNumber d2) := by
  unfold laterDate
  split <;> omega

theorem dayNumber_dateFold (off : Int) (bucket : List (String × Photo)) :
    ∀ d0 : Int × Int × Int,
      dayNumber (bucket.foldl
        (fun d e => laterDate d (instantToDate off e.2.creation_timestamp)) d0) =
      (bucket.map (fun e => (e.2.creation_timestamp + off * 60) / 86400)).foldl max
        (dayNumber d0) := by
  induction bucket with
  | nil => intro d0; rfl
  | cons e rest ih =>
    intro d0
    simp only [List.foldl_cons, List.map_cons]
    rw [ih]
    have h1 : dayNumber (laterDate d0 (instantToDate off e.2.creation_timestamp)) =
        max (dayNumber d0) ((e.2.creation_timestamp + off * 60) / 86400) := by
      rw [dayNumber_laterDate]
      congr 1
      exact dayNumber_civilFromDays _
    rw [h1]

/-- C4: every album whose key is present in the import set comes out of
`updateAlbumDetails` with `updated = true` (even when the date is
unchanged) and with its date replaced by the running later-date fold of its
current date and the capture dates of the photos of its bucket; the day
number of that date is exactly the maximum of the current date's day number
and the capture days of the bucket's photos. -/
theorem updateAlbumDetails_max_date (off : Int) (albumList : List Album)
    (importList : ImportList) (i : Nat) (album : Album)
    (hget : albumList[i]? = some album)
    (bucket : List (String × Photo))
    (hkey : alistGet importList album.albumKey = some bucket)
    (hvalid : civilFromDays (dayNumber album.date) = album.date) :
    (updateAlbumDetails off albumList importList)[i]? = some
      { album with
          date := bucket.foldl
            (fun d e => laterDate d (instantToDate off e.2.creation_timestamp)) album.date
          updated := true } ∧
    dayNumber (bucket.foldl
        (fun d e => laterDate d (instantToDate off e.2.creation_timestamp)) album.date) =
      (bucket.map (fun e => (e.2.creation_timestamp + off * 60) / 86400)).foldl max
        (dayNumber album.date) := by
  have hinit : instantToDate off (dateToInstant off album.date) = album.date := by
    unfold instantToDate dateToInstant
    rw [(by ring :
      daysFromCivil album.date.1 album.date.2.1 album.date.2.2 * 86400 - off * 60 + off * 60
        = daysFromCivil album.date.1 album.date.2.1 album.date.2.2 * 86400)]
    rw [Int.mul_ediv_cancel _ (by norm_num)]
    simp only [dayNumber] at hvalid
    exact hvalid
  constructor
  · unfold updateAlbumDetails
    rw [List.getElem?_map, hget]
    simp only [Option.map_some']
    rw [hkey]
    dsimp only
    rw [photoDateMax_toDate, hinit]
  · exact dayNumber_dateFold off bucket album.date

theorem updateAlbumDetails_max_date_witness :
    (updateAlbumDetails 0 [⟨"alb", ["t"], (2020, 8, 29), false⟩]
      [("alb", [("u", ⟨"u", "c", 1609459200, none⟩)])])[0]? = some
      { (⟨"alb", ["t"], (2020, 8, 29), false⟩ : Album) with
          date := [(("u" : String), (⟨"u", "c", 1609459200, none⟩ : Photo))].foldl
            (fun d e => laterDate d (instantToDate 0 e.2.creation_timestamp)) (2020, 8, 29)
          updated := true } ∧
    dayNumber ([(("u" : String), (⟨"u", "c", 1609459200, none⟩ : Photo))].foldl
        (fun d e => laterDate d (instantToDate 0 e.2.creation_timestamp)) (2020, 8, 29)) =
      ([(("u" : String), (⟨"u", "c", 1609459200, none⟩ : Photo))].map
        (fun e => (e.2.creation_timestamp + 0 * 60) / 86400)).foldl max
        (dayNumber (2020, 8, 29)) :=
  updateAlbumDetails_max_date 0 [⟨"alb", ["t"], (2020, 8, 29), false⟩]
    [("alb", [("u", ⟨"u", "c", 1609459200, none⟩)])] 0
    ⟨"alb", ["t"], (2020, 8, 29), false⟩ rfl
    [("u", ⟨"u", "c", 1609459200, none⟩)] (by decide) (by decide)

/-! ## C2: `importPhotos` caching -/

theorem updateExifTags_uri (off : Int) (inputPath : String) (p : Photo) :
    (updateExifTags off inputPath p).uri = p.uri := rfl

theorem countUpdates_append (k : String) (e1 e2 : List Event) :
    countUpdates k (e1 ++ e2) = countUpdates k e1 + countUpdates k e2 := by
  simp [countUpdates, List.countP_append]

theorem countUpdates_single_copy (k ak k' : String) (pth : Option String) :
    countUpdates k [Event.copy ak k' pth] = 0 := by
  simp [countUpdates]

theorem countUpdates_update_copy (k key ak : String) (pth : Option String) :
    countUpdates k [Event.update key, Event.copy ak key pth] = if key = k then 1 else 0 := by
  by_cases h : key = k <;> simp [countUpdates, h]

theorem runBucket_k_none (off : Int) (inputPath : String) (k : String) :
    ∀ (bucket : List (String × Photo)) (ak : String) (st : ImportState),
      (∀ e ∈ bucket, e.2.uri = e.1) →
      alistGet st.cache k = none →
      firstInBucket k bucket = none →
      alistGet (runBucket off inputPath ak bucket st).cache k = none ∧
      countUpdates k (runBucket off inputPath ak bucket st).events =
        countUpdates k st.events ∧
      (∀ (ak' : String) (pth : Option String),
        Event.copy ak' k pth ∈ (runBucket off inputPath ak bucket st).events →
        Event.copy ak' k pth ∈ st.events) := by
  intro bucket
  induction bucket with
  | nil => intro ak st _ hc _; exact ⟨hc, rfl, fun _ _ h => h⟩
  | cons e rest ih =>
    intro ak st hkeys hc hf
    obtain ⟨key, photo⟩ := e
    have hkey : key ≠ k := by
      intro hcon
      simp only [firstInBucket, if_pos hcon] at hf
      exact Option.noConfusion hf
    have hfr : firstInBucket k rest = none := by
      simpa only [firstInBucket, if_neg hkey] using hf
    have huri : photo.uri = key := hkeys (key, photo) (by simp)
    have hkeysr : ∀ e ∈ rest, e.2.uri = e.1 := fun x hx => hkeys x (by simp [hx])
    rcases hcase : alistGet st.cache key with _ | cached
    · -- cache miss for this entry
      simp only [runBucket, hcase]
      have hget : alistGet (alistSet st.cache (updateExifTags off inputPath photo).uri
          (updateExifTags off inputPath photo)) k = none := by
        rw [updateExifTags_uri, huri, alistGet_alistSet_ne _ _ _ _ (Ne.symm hkey)]
        exact hc
      obtain ⟨ha, hb, hcop⟩ := ih ak
        ⟨alistSet st.cache (updateExifTags off inputPath photo).uri
            (updateExifTags off inputPath photo),
          st.events ++ [Event.update key,
            Event.copy ak key (updateExifTags off inputPath photo).newPath]⟩
        hkeysr hget hfr
      refine ⟨ha, ?_, ?_⟩
      · rw [hb]
        simp only [countUpdates_append, countUpdates_update_copy, if_neg hkey]
        omega
      · intro ak' pth hmem
        have h2 := hcop ak' pth hmem
        simp only [List.mem_append, List.mem_cons, List.mem_singleton,
          List.not_mem_nil, or_false] at h2
        rcases h2 with h3 | h3 | h3
        · exact h3
        · exact Event.noConfusion h3
        · injection h3 with h4 h5 h6
          exact absurd h5.symm hkey
    · -- cache hit for this entry
      simp only [runBucket, hcase]
      obtain ⟨ha, hb, hcop⟩ := ih ak
        ⟨st.cache, st.events ++ [Event.copy ak key cached.newPath]⟩ hkeysr hc hfr
      refine ⟨ha, ?_, ?_⟩
      · rw [hb, countUpdates_append, countUpdates_single_copy]
        omega
      · intro ak' pth hmem
        have h2 := hcop ak' pth hmem
        rcases List.mem_append.mp h2 with h3 | h3
        · exact h3
        · simp only [List.mem_singleton] at h3
          injection h3 with h4 h5 h6
          exact absurd h5.symm hkey

theorem runBucket_k_some (off : Int) (inputPath : String) (k : String) :
    ∀ (bucket : List (String × Photo)) (ak : String) (st : ImportState) (q : Photo),
      (∀ e ∈ bucket, e.2.uri = e.1) →
      alistGet st.cache k = some q →
      alistGet (runBucket off inputPath ak bucket st).cache k = some q ∧
      countUpdates k (runBucket off inputPath ak bucket st).events =
        countUpdates k st.events ∧
      (∀ (ak' : String) (pth : Option String),
        Event.copy ak' k pth ∈ (runBucket off inputPath ak bucket st).events →
        Event.copy ak' k pth ∈ st.events ∨ pth = q.newPath) := by
  intro bucket
  induction bucket with
  | nil => intro ak st q _ hc; exact ⟨hc, rfl, fun _ _ h => Or.inl h⟩
  | cons e rest ih =>
    intro ak st q hkeys hc
    obtain ⟨key, photo⟩ := e
    have huri : photo.uri = key := hkeys (key, photo) (by simp)
    have hkeysr : ∀ e ∈ rest, e.2.uri = e.1 := fun x hx => hkeys x (by simp [hx])
    rcases hcase : alistGet st.cache key with _ | cached
    · -- cache miss for this entry, so its key differs from k
      have hkey : key ≠ k := by
        intro hcon
        rw [hcon] at hcase
        rw [hcase] at hc
        exact Option.noConfusion hc
      have hget : alistGet (alistSet st.cache (updateExifTags off inputPath photo).uri
          (updateExifTags off inputPath photo)) k = some q := by
        rw [updateExifTags_uri, huri, alistGet_alistSet_ne _ _ _ _ (Ne.symm hkey)]
        exact hc
      simp only [runBucket, hcase]
      obtain ⟨ha, hb, hcop⟩ := ih ak
        ⟨alistSet st.cache (updateExifTags off inputPath photo).uri
            (updateExifTags off inputPath photo),
          st.events ++ [Event.update key,
            Event.copy ak key (updateExifTags off inputPath photo).newPath]⟩ q
        hkeysr hget
      refine ⟨ha, ?_, ?_⟩
      · rw [hb]
        simp only [countUpdates_append, countUpdates_update_copy, if_neg hkey]
        omega
      · intro ak' pth hmem
        rcases hcop ak' pth hmem with h2 | h2
        · simp only [List.mem_append, List.mem_cons, List.not_mem_nil, or_false] at h2
          rcases h2 with h3 | h3 | h3
          · exact Or.inl h3
          · exact Event.noConfusion h3
          · injection h3 with h5 h6 h7
            exact absurd h6.symm hkey
        · exact Or.inr h2
    · -- cache hit for this entry
      simp only [runBucket, hcase]
      obtain ⟨ha, hb, hcop⟩ := ih ak
        ⟨st.cache, st.events ++ [Event.copy ak key cached.newPath]⟩ q hkeysr hc
      refine ⟨ha, ?_, ?_⟩
      · rw [hb, countUpdates_append, countUpdates_single_copy]
        omega
      · intro ak' pth hmem
        rcases hcop ak' pth hmem with h2 | h2
        · simp only [List.mem_append, List.mem_cons, List.not_mem_nil, or_false] at h2
          rcases h2 with h3 | h3
          · exact Or.inl h3
          · injection h3 with h5 h6 h7
            rw [← h6] at hcase
            rw [hc] at hcase
            injection hcase with h8
            exact Or.inr (by rw [h7, h8])
        · exact Or.inr h2

theorem runBucket_k_first (off : Int) (inputPath : String) (k : String) :
    ∀ (bucket : List (String × Photo)) (ak : String) (st : ImportState) (p : Photo),
      (∀ e ∈ bucket, e.2.uri = e.1) →
      alistGet st.cache k = none →
      firstInBucket k bucket = some p →
      alistGet (runBucket off inputPath ak bucket st).cache k =
        some (updateExifTags off inputPath p) ∧
      countUpdates k (runBucket off inputPath ak bucket st).events =
        countUpdates k st.events + 1 ∧
      (∀ (ak' : String) (pth : Option String),
        Event.copy ak' k pth ∈ (runBucket off inputPath ak bucket st).events →
        Event.copy ak' k pth ∈ st.events ∨
          pth = (updateExifTags off inputPath p).newPath) := by
  intro bucket
  induction bucket with
  | nil =>
    intro ak st p _ _ hf
    exact absurd hf (by simp [firstInBucket])
  | cons e rest ih =>
    intro ak st p hkeys hc hf
    obtain ⟨key, photo⟩ := e
    have huri : photo.uri = key := hkeys (key, photo) (by simp)
    have hkeysr : ∀ e ∈ rest, e.2.uri = e.1 := fun x hx => hkeys x (by simp [hx])
    by_cases hkk : key = k
    · -- the head entry is the first occurrence of k
      have hp : photo = p := by
        simp only [firstInBucket, if_pos hkk] at hf
        injection hf
      subst hp
      have hcase : alistGet st.cache key = none := by rw [hkk]; exact hc
      simp only [runBucket, hcase]
      have hget : alistGet (alistSet st.cache (updateExifTags off inputPath photo).uri
          (updateExifTags off inputPath photo)) k =
          some (updateExifTags off inputPath photo) := by
        rw [updateExifTags_uri, huri, hkk, alistGet_alistSet_self]
      obtain ⟨ha, hb, hcop⟩ := runBucket_k_some off inputPath k rest ak
        ⟨alistSet st.cache (updateExifTags off inputPath photo).uri
            (updateExifTags off inputPath photo),
          st.events ++ [Event.update key,
            Event.copy ak key (updateExifTags off inputPath photo).newPath]⟩
        (updateExifTags off inputPath photo) hkeysr hget
      refine ⟨ha, ?_, ?_⟩
      · rw [hb]
        simp only [countUpdates_append, countUpdates_update_copy, if_pos hkk]
      · intro ak' pth hmem
        rcases hcop ak' pth hmem with h2 | h2
        · simp only [List.mem_append, List.mem_cons, List.not_mem_nil, or_false] at h2
          rcases h2 with h3 | h3 | h3
          · exact Or.inl h3
          · exact Event.noConfusion h3
          · injection h3 with h5 h6 h7
            exact Or.inr h7
        · exact Or.inr h2
    · -- the first occurrence of k lies further in the bucket
      have hfr : firstInBucket k rest = some p := by
        simpa only [firstInBucket, if_neg hkk] using hf
      rcases hcase : alistGet st.cache key with _ | cached
      · simp only [runBucket, hcase]
        have hget : alistGet (alistSet st.cache (updateExifTags off inputPath photo).uri
            (updateExifTags off inputPath photo)) k = none := by
          rw [updateExifTags_uri, huri, alistGet_alistSet_ne _ _ _ _ (Ne.symm hkk)]
          exact hc
        obtain ⟨ha, hb, hcop⟩ := ih ak
          ⟨alistSet st.cache (updateExifTags off inputPath photo).uri
              (updateExifTags off inputPath photo),
            st.events ++ [Event.update key,
              Event.copy ak key (updateExifTags off inputPath photo).newPath]⟩ p
          hkeysr hget hfr
        refine ⟨ha, ?_, ?_⟩
        · rw [hb]
          simp only [countUpdates_append, countUpdates_update_copy, if_neg hkk]
        · intro ak' pth hmem
          rcases hcop ak' pth hmem with h2 | h2
          · simp only [List.mem_append, List.mem_cons, List.not_mem_nil, or_false] at h2
            rcases h2 with h3 | h3 | h3
            · exact Or.inl h3
            · exact Event.noConfusion h3
            · injection h3 with h5 h6 h7
              exact absurd h6.symm hkk
          · exact Or.inr h2
      · simp only [runBucket, hcase]
        obtain ⟨ha, hb, hcop⟩ := ih ak
          ⟨st.cache, st.events ++ [Event.copy ak key cached.newPath]⟩ p hkeysr hc hfr
        refine ⟨ha, ?_, ?_⟩
        · rw [hb, countUpdates_append, countUpdates_single_copy]
        · intro ak' pth hmem
          rcases hcop ak' pth hmem with h2 | h2
          · simp only [List.mem_append, List.mem_cons, List.not_mem_nil, or_false] at h2
            rcases h2 with h3 | h3
            · exact Or.inl h3
            · injection h3 with h5 h6 h7
              exact absurd h6.symm hkk
          · exact Or.inr h2

theorem importFold_k_none (off : Int) (inputPath : String) (k : String) :
    ∀ (albums : ImportList) (st : ImportState),
      (∀ ab ∈ albums, ∀ e ∈ ab.2, e.2.uri = e.1) →
      alistGet st.cache k = none →
      firstPhotoFor k albums = none →
      alistGet ((albums.foldl (fun st e => runBucket off inputPath e.1 e.2 st) st)).cache k
        = none ∧
      countUpdates k ((albums.foldl (fun st e => runBucket off inputPath e.1 e.2 st)
        st)).events = countUpdates k st.events ∧
      (∀ (ak' : String) (pth : Option String),
        Event.copy ak' k pth ∈
          ((albums.foldl (fun st e => runBucket off inputPath e.1 e.2 st) st)).events →
        Event.copy ak' k pth ∈ st.events) := by
  intro albums
  induction albums with
  | nil => intro st _ hc _; exact ⟨hc, rfl, fun _ _ h => h⟩
  | cons ab rest ih =>
    intro st hkeys hc hf
    obtain ⟨ak, bucket⟩ := ab
    rcases hcb : firstInBucket k bucket with _ | p
    · have hfr : firstPhotoFor k rest = none := by
        simpa only [firstPhotoFor, hcb] using hf
      simp only [List.foldl_cons]
      obtain ⟨ha, hb, hcop⟩ := runBucket_k_none off inputPath k bucket ak st
        (hkeys (ak, bucket) (by simp)) hc hcb
      obtain ⟨ha2, hb2, hcop2⟩ := ih (runBucket off inputPath ak bucket st)
        (fun x hx => hkeys x (by simp [hx])) ha hfr
      exact ⟨ha2, by rw [hb2, hb], fun ak' pth h => hcop ak' pth (hcop2 ak' pth h)⟩
    · exfalso
      simp only [firstPhotoFor, hcb] at hf
      exact Option.noConfusion hf

theorem importFold_k_some (off : Int) (inputPath : String) (k : String) :
    ∀ (albums : ImportList) (st : ImportState) (q : Photo),
      (∀ ab ∈ albums, ∀ e ∈ ab.2, e.2.uri = e.1) →
      alistGet st.cache k = some q →
      alistGet ((albums.foldl (fun st e => runBucket off inputPath e.1 e.2 st) st)).cache k
        = some q ∧
      countUpdates k ((albums.foldl (fun st e => runBucket off inputPath e.1 e.2 st)
        st)).events = countUpdates k st.events ∧
      (∀ (ak' : String) (pth : Option String),
        Event.copy ak' k pth ∈
          ((albums.foldl (fun st e => runBucket off inputPath e.1 e.2 st) st)).events →
        Event.copy ak' k pth ∈ st.events ∨ pth = q.newPath) := by
  intro albums
  induction albums with
  | nil => intro st q _ hc; exact ⟨hc, rfl, fun _ _ h => Or.inl h⟩
  | cons ab rest ih =>
    intro st q hkeys hc
    obtain ⟨ak, bucket⟩ := ab
    simp only [List.foldl_cons]
    obtain ⟨ha, hb, hcop⟩ := runBucket_k_some off inputPath k bucket ak st q
      (hkeys (ak, bucket) (by simp)) hc
    obtain ⟨ha2, hb2, hcop2⟩ := ih (runBucket off inputPath ak bucket st) q
      (fun x hx => hkeys x (by simp [hx])) ha
    refine ⟨ha2, by rw [hb2, hb], ?_⟩
    intro ak' pth h
    rcases hcop2 ak' pth h with h2 | h2
    · exact hcop ak' pth h2
    · exact Or.inr h2

theorem importFold_k_first (off : Int) (inputPath : String) (k : String) :
    ∀ (albums : ImportList) (st : ImportState) (p : Photo),
      (∀ ab ∈ albums, ∀ e ∈ ab.2, e.2.uri = e.1) →
      alistGet st.cache k = none →
      firstPhotoFor k albums = some p →
      alistGet ((albums.foldl (fun st e => runBucket off inputPath e.1 e.2 st) st)).cache k
        = some (updateExifTags off inputPath p) ∧
      countUpdates k ((albums.foldl (fun st e => runBucket off inputPath e.1 e.2 st)
        st)).events = countUpdates k st.events + 1 ∧
      (∀ (ak' : String) (pth : Option String),
        Event.copy ak' k pth ∈
          ((albums.foldl (fun st e => runBucket off inputPath e.1 e.2 st) st)).events →
        Event.copy ak' k pth ∈ st.events ∨
          pth = (updateExifTags off inputPath p).newPath) := by
  intro albums
  induction albums with
  | nil =>
    intro st p _ _ hf
    exact absurd hf (by simp [firstPhotoFor])
  | cons ab rest ih =>
    intro st p hkeys hc hf
    obtain ⟨ak, bucket⟩ := ab
    simp only [List.foldl_cons]
    rcases hcb : firstInBucket k bucket with _ | p'
    · -- the first occurrence is in a later album
      have hfr : firstPhotoFor k rest = some p := by
        simpa only [firstPhotoFor, hcb] using hf
      obtain ⟨ha, hb, hcop⟩ := runBucket_k_none off inputPath k bucket ak st
        (hkeys (ak, bucket) (by simp)) hc hcb
      obtain ⟨ha2, hb2, hcop2⟩ := ih (runBucket off inputPath ak bucket st) p
        (fun x hx => hkeys x (by simp [hx])) ha hfr
      refine ⟨ha2, by rw [hb2, hb], ?_⟩
      intro ak' pth h
      rcases hcop2 ak' pth h with h2 | h2
      · exact Or.inl (hcop ak' pth h2)
      · exact Or.inr h2
    · -- the first occurrence is in this album's bucket
      have hp : p' = p := by
        simp only [firstPhotoFor, hcb] at hf
        injection hf
      subst hp
      obtain ⟨ha, hb, hcop⟩ := runBucket_k_first off inputPath k bucket ak st p'
        (hkeys (ak, bucket) (by simp)) hc hcb
      obtain ⟨ha2, hb2, hcop2⟩ := importFold_k_some off inputPath k rest
        (runBucket off inputPath ak bucket st) (updateExifTags off inputPath p')
        (fun x hx => hkeys x (by simp [hx])) ha
      refine ⟨ha2, by rw [hb2, hb], ?_⟩
      intro ak' pth h
      rcases hcop2 ak' pth h with h2 | h2
      · exact hcop ak' pth h2
      · exact Or.inr h2

/-- C2: in one `importPhotos` run started from the fresh empty cache, an
identity key present in the import list (in particular one occurring in the
buckets of two or more albums) is handed to the tag-rewrite/rename
operation `updateExifTags` exactly once, at its first occurrence; the
processed record is stored in the `ImportCache` under the key; and every
copy performed for that key — including the copies into the later albums —
uses the `newPath` of that one cached record. -/
theorem importPhotos_cache_once (off : Int) (inputPath : String) (importList : ImportList)
    (k : String) (p : Photo)
    (hkeys : ∀ ab ∈ importList, ∀ e ∈ ab.2, e.2.uri = e.1)
    (hfirst : firstPhotoFor k importList = some p) :
    countUpdates k (importPhotos off inputPath importList).events = 1 ∧
    alistGet (importPhotos off inputPath importList).cache k =
      some (updateExifTags off inputPath p) ∧
    (∀ (ak : String) (pth : Option String),
      Event.copy ak k pth ∈ (importPhotos off inputPath importList).events →
      pth = (updateExifTags off inputPath p).newPath) := by
  obtain ⟨ha, hb, hcop⟩ := importFold_k_first off inputPath k importList ⟨[], []⟩ p
    hkeys rfl hfirst
  have hrw : importPhotos off inputPath importList =
      importList.foldl (fun st e => runBucket off inputPath e.1 e.2 st) ⟨[], []⟩ := rfl
  rw [hrw]
  refine ⟨by rw [hb]; rfl, ha, ?_⟩
  intro ak pth h
  rcases hcop ak pth h with h2 | h2
  · exact absurd h2 (List.not_mem_nil _)
  · exact h2

theorem importPhotos_cache_once_witness :
    countUpdates "k" (importPhotos 0 "in"
      [("a1", [("k", ⟨"k", "t", 0, none⟩)]), ("a2", [("k", ⟨"k", "t", 0, none⟩)])]).events
      = 1 ∧
    alistGet (importPhotos 0 "in"
      [("a1", [("k", ⟨"k", "t", 0, none⟩)]), ("a2", [("k", ⟨"k", "t", 0, none⟩)])]).cache "k"
      = some (updateExifTags 0 "in" ⟨"k", "t", 0, none⟩) ∧
    (∀ (ak : String) (pth : Option String),
      Event.copy ak "k" pth ∈ (importPhotos 0 "in"
        [("a1", [("k", ⟨"k", "t", 0, none⟩)]),
          ("a2", [("k", ⟨"k", "t", 0, none⟩)])]).events →
      pth = (updateExifTags 0 "in" ⟨"k", "t", 0, none⟩).newPath) :=
  importPhotos_cache_once 0 "in"
    [("a1", [("k", ⟨"k", "t", 0, none⟩)]), ("a2", [("k", ⟨"k", "t", 0, none⟩)])]
    "k" ⟨"k", "t", 0, none⟩ (by simp) rfl

/-! ## C3: the canonical file name of `updateExifTags` -/

theorem civilOfEraDoe_md_bounds (era doe : Int) (h0 : 0 ≤ doe) (h1 : doe ≤ 146096) :
    1 ≤ (civilOfEraDoe era doe).2.1 ∧ (civilOfEraDoe era doe).2.1 ≤ 12 ∧
    1 ≤ (civilOfEraDoe era doe).2.2 ∧ (civilOfEraDoe era doe).2.2 ≤ 31 := by
  obtain ⟨hy0, hy1⟩ := yoeAt_bounds doe h0 h1
  have hC := dstart_yoeAt_le doe h0 h1
  have hD := doe_le_dstart_add doe h0 h1
  simp only [civilOfEraDoe]
  generalize hy : yoeAt doe = y at *
  simp only [dstart] at hC hD ⊢
  split_ifs <;> refine ⟨by omega, by omega, by omega, by omega⟩

theorem civilOfEraDoe_year_low (era doe : Int) (h0 : 0 ≤ doe) (h1 : doe ≤ 146096)
    (hera : 4 ≤ era) : 1600 ≤ (civilOfEraDoe era doe).1 := by
  obtain ⟨hy0, hy1⟩ := yoeAt_bounds doe h0 h1
  simp only [civilOfEraDoe]
  generalize hy : yoeAt doe = y at *
  split_ifs <;> omega

theorem daysFromCivil_big (y m d : Int) (hm1 : 1 ≤ m) (hm2 : m ≤ 12) (hd : 1 ≤ d)
    (hy : 10000 ≤ y) : 2932896 < daysFromCivil y m d := by
  simp only [daysFromCivil]
  split_ifs <;> omega

theorem civilFromDays_bounds (z : Int) (h0 : 0 ≤ z) (h1 : z ≤ 2932896) :
    1600 ≤ (civilFromDays z).1 ∧ (civilFromDays z).1 ≤ 9999 ∧
    1 ≤ (civilFromDays z).2.1 ∧ (civilFromDays z).2.1 ≤ 12 ∧
    1 ≤ (civilFromDays z).2.2 ∧ (civilFromDays z).2.2 ≤ 31 := by
  have hrw : civilFromDays z = civilOfEraDoe ((z + 719468) / 146097)
      ((z + 719468) - (z + 719468) / 146097 * 146097) := rfl
  have hdoe0 : 0 ≤ (z + 719468) - (z + 719468) / 146097 * 146097 := by omega
  have hdoe1 : (z + 719468) - (z + 719468) / 146097 * 146097 ≤ 146096 := by omega
  have hmd := civilOfEraDoe_md_bounds ((z + 719468) / 146097) _ hdoe0 hdoe1
  rw [← hrw] at hmd
  have hylow : 1600 ≤ (civilFromDays z).1 := by
    rw [hrw]
    exact civilOfEraDoe_year_low _ _ hdoe0 hdoe1 (by omega)
  refine ⟨hylow, ?_, hmd.1, hmd.2.1, hmd.2.2.1, hmd.2.2.2⟩
  by_contra hcon
  push_neg at hcon
  have hbig := daysFromCivil_big (civilFromDays z).1 (civilFromDays z).2.1
    (civilFromDays z).2.2 hmd.1 hmd.2.1 hmd.2.2.1 (by omega)
  rw [daysFromCivil_civilFromDays] at hbig
  omega

theorem toNat_digitChar (r : Nat) (h : r < 10) : (Char.ofNat (48 + r)).toNat = 48 + r := by
  interval_cases r <;> decide

theorem decodeDigits_concat (l : List Char) (c : Char) :
    decodeDigits (l ++ [c]) = decodeDigits l * 10 + (c.toNat - 48) := by
  simp [decodeDigits, List.foldl_append]

theorem decodeDigits_padDigits : ∀ (w n : Nat), n < 10 ^ w →
    decodeDigits (padDigits w n) = n := by
  intro w
  induction w with
  | zero =>
    intro n hn
    simp only [pow_zero, Nat.lt_one_iff] at hn
    subst hn
    rfl
  | succ k ih =>
    intro n hn
    simp only [padDigits]
    rw [decodeDigits_concat, toNat_digitChar (n % 10) (Nat.mod_lt _ (by norm_num))]
    have hdiv : n / 10 < 10 ^ k := by
      rw [Nat.div_lt_iff_lt_mul (by norm_num)]
      calc n < 10 ^ (k + 1) := hn
        _ = 10 ^ k * 10 := by rw [pow_succ]
    rw [ih (n / 10) hdiv]
    omega

/-- C3: the new file name computed by `updateExifTags` is the capture
instant rendered as eight date digits, a dash, six time digits and the
numeric UTC offset of the capture instant, followed by the literal suffix
`-ig` and the original file extension.  The rendered fields are the civil
date and time of the instant in the offset's zone, lie in their calendar
ranges, and — together with the offset — decode back to the capture
instant, so the name determines it. -/
theorem updateExifTags_canonical_filename (off : Int) (inputPath : String) (photo : Photo)
    (h0 : 0 ≤ photo.creation_timestamp + off * 60)
    (h1 : photo.creation_timestamp + off * 60 < 253402300800)
    (hoff : off.natAbs < 6000) :
    ∃ y mo d hh mi ss : Nat,
      (updateExifTags off inputPath photo).newPath =
        some (joinPath (dirname (joinPath inputPath photo.uri))
          (String.mk (padDigits 4 y ++ padDigits 2 mo ++ padDigits 2 d
              ++ '-' :: (padDigits 2 hh ++ padDigits 2 mi ++ padDigits 2 ss)
              ++ fmtOffset off)
            ++ "-ig" ++ extname photo.uri)) ∧
      (1600 ≤ y ∧ y ≤ 9999 ∧ 1 ≤ mo ∧ mo ≤ 12 ∧ 1 ≤ d ∧ d ≤ 31 ∧
        hh < 24 ∧ mi < 60 ∧ ss < 60) ∧
      (decodeDigits (padDigits 4 y) = y ∧ decodeDigits (padDigits 2 mo) = mo ∧
        decodeDigits (padDigits 2 d) = d ∧ decodeDigits (padDigits 2 hh) = hh ∧
        decodeDigits (padDigits 2 mi) = mi ∧ decodeDigits (padDigits 2 ss) = ss) ∧
      (off.natAbs / 60 < 100 ∧
        decodeDigits (padDigits 2 (off.natAbs / 60)) * 60 +
          decodeDigits (padDigits 2 (off.natAbs % 60)) = off.natAbs) ∧
      daysFromCivil y mo d * 86400 + ((hh : Int) * 3600 + mi * 60 + ss) - off * 60 =
        photo.creation_timestamp := by
  have hdays0 : 0 ≤ (photo.creation_timestamp + off * 60) / 86400 := by omega
  have hdays1 : (photo.creation_timestamp + off * 60) / 86400 ≤ 2932896 := by omega
  have hb := civilFromDays_bounds ((photo.creation_timestamp + off * 60) / 86400)
    hdays0 hdays1
  have hrt := daysFromCivil_civilFromDays ((photo.creation_timestamp + off * 60) / 86400)
  have hsod0 : 0 ≤ (photo.creation_timestamp + off * 60) % 86400 := by omega
  have hsod1 : (photo.creation_timestamp + off * 60) % 86400 < 86400 := by omega
  refine ⟨(civilFromDays ((photo.creation_timestamp + off * 60) / 86400)).1.toNat,
    (civilFromDays ((photo.creation_timestamp + off * 60) / 86400)).2.1.toNat,
    (civilFromDays ((photo.creation_timestamp + off * 60) / 86400)).2.2.toNat,
    ((photo.creation_timestamp + off * 60) % 86400).toNat / 3600,
    ((photo.creation_timestamp + off * 60) % 86400).toNat % 3600 / 60,
    ((photo.creation_timestamp + off * 60) % 86400).toNat % 60,
    rfl, ?_, ?_, ?_, ?_⟩
  · refine ⟨by omega, by omega, by omega, by omega, by omega, by omega, ?_, ?_, ?_⟩
    · omega
    · omega
    · omega
  · refine ⟨?_, ?_, ?_, ?_, ?_, ?_⟩ <;>
      exact decodeDigits_padDigits _ _ (by omega)
  · refine ⟨by omega, ?_⟩
    rw [decodeDigits_padDigits _ _ (by omega), decodeDigits_padDigits _ _ (by omega)]
    omega
  · rw [Int.toNat_of_nonneg (by omega),
      Int.toNat_of_nonneg (by omega : (0:Int) ≤
        (civilFromDays ((photo.creation_timestamp + off * 60) / 86400)).2.1),
      Int.toNat_of_nonneg (by omega : (0:Int) ≤
        (civilFromDays ((photo.creation_timestamp + off * 60) / 86400)).2.2),
      hrt]
    omega

theorem updateExifTags_canonical_filename_witness :
    ∃ y mo d hh mi ss : Nat,
      (updateExifTags 630 "in" ⟨"a/b.jpg", "t", 1606540655, none⟩).newPath =
        some (joinPath (dirname (joinPath "in" "a/b.jpg"))
          (String.mk (padDigits 4 y ++ padDigits 2 mo ++ padDigits 2 d
              ++ '-' :: (padDigits 2 hh ++ padDigits 2 mi ++ padDigits 2 ss)
              ++ fmtOffset 630)
            ++ "-ig" ++ extname "a/b.jpg")) ∧
      (1600 ≤ y ∧ y ≤ 9999 ∧ 1 ≤ mo ∧ mo ≤ 12 ∧ 1 ≤ d ∧ d ≤ 31 ∧
        hh < 24 ∧ mi < 60 ∧ ss < 60) ∧
      (decodeDigits (padDigits 4 y) = y ∧ decodeDigits (padDigits 2 mo) = mo ∧
        decodeDigits (padDigits 2 d) = d ∧ decodeDigits (padDigits 2 hh) = hh ∧
        decodeDigits (padDigits 2 mi) = mi ∧ decodeDigits (padDigits 2 ss) = ss) ∧
      ((630 : Int).natAbs / 60 < 100 ∧
        decodeDigits (padDigits 2 ((630 : Int).natAbs / 60)) * 60 +
          decodeDigits (padDigits 2 ((630 : Int).natAbs % 60)) = (630 : Int).natAbs) ∧
      daysFromCivil y mo d * 86400 + ((hh : Int) * 3600 + mi * 60 + ss) - 630 * 60 =
        (1606540655 : Int) :=
  updateExifTags_canonical_filename 630 "in" ⟨"a/b.jpg", "t", 1606540655, none⟩
    (by decide) (by decide) (by decide)

/-! ## C6: the front matter parsed by `getAlbumDetails` -/

theorem isPrefixCh_append_self (p t : List Char) : isPrefixCh p (p ++ t) = true := by
  induction p with
  | nil => rfl
  | cons c rest ih => simp [isPrefixCh, ih]

theorem isPrefixCh_exists (p l : List Char) (h : isPrefixCh p l = true) :
    ∃ t, l = p ++ t := by
  induction p generalizing l with
  | nil => exact ⟨l, rfl⟩
  | cons c rest ih =>
    match l with
    | [] => simp [isPrefixCh] at h
    | d :: ds =>
      simp only [isPrefixCh, Bool.and_eq_true, beq_iff_eq] at h
      obtain ⟨t, ht⟩ := ih ds h.2
      exact ⟨t, by rw [← h.1, ht, List.cons_append]⟩

theorem isPrefixCh_take (p : List Char) :
    ∀ (l : List Char) (n : Nat), p.length ≤ n →
      isPrefixCh p (l.take n) = isPrefixCh p l := by
  induction p with
  | nil => intro l n _; rfl
  | cons c rest ih =>
    intro l n h
    match l, n with
    | [], _ => simp
    | d :: ds, 0 => exact absurd h (by simp)
    | d :: ds, m + 1 =>
      simp only [List.take_succ_cons, isPrefixCh]
      rw [ih ds m (by simpa using h)]

theorem markerAt_bound (c : List Char) (t : Nat) (h : markerAt c t = true) :
    t + 3 ≤ c.length := by
  obtain ⟨tail, htail⟩ := isPrefixCh_exists marker (c.drop t) h
  have hlen : (c.drop t).length = c.length - t := List.length_drop t c
  rw [htail] at hlen
  simp only [List.length_append, marker, List.length_cons, List.length_nil] at hlen
  omega

theorem occIdx_mem (c : List Char) (t : Nat) : t ∈ occIdx c ↔ markerAt c t = true := by
  unfold occIdx
  rw [List.mem_filter, List.mem_range]
  constructor
  · exact fun h => h.2
  · intro h
    exact ⟨by have := markerAt_bound c t h; omega, h⟩

theorem stripMarkers_nil (fuel : Nat) : stripMarkers fuel [] = [] := by
  cases fuel <;> rfl

theorem stripMarkers_marker_cons (fuel : Nat) (x : List Char) :
    stripMarkers (fuel + 1) (marker ++ x) = stripMarkers fuel x := by
  show stripMarkers (fuel + 1) ('+' :: '+' :: '+' :: x) = stripMarkers fuel x
  simp only [stripMarkers]
  rw [if_pos (show isPrefixCh marker ('+' :: '+' :: '+' :: x) = true from
    isPrefixCh_append_self marker x)]
  rfl

theorem stripMarkers_clean : ∀ (x rest : List Char) (fuel : Nat),
    (∀ t, t < x.length → isPrefixCh marker ((x ++ rest).drop t) = false) →
    x.length + rest.length ≤ fuel →
    stripMarkers fuel (x ++ rest) = x ++ stripMarkers (fuel - x.length) rest := by
  intro x
  induction x with
  | nil => intro rest fuel _ _; simp
  | cons ch x' ih =>
    intro rest fuel hcl hfuel
    match fuel with
    | 0 =>
      exfalso
      simp only [List.length_cons] at hfuel
      omega
    | f + 1 =>
      have h0 : isPrefixCh marker (ch :: (x' ++ rest)) = false := by
        have := hcl 0 (by simp)
        simpa using this
      show stripMarkers (f + 1) (ch :: (x' ++ rest)) = _
      simp only [stripMarkers]
      rw [if_neg (by simp [h0])]
      have hcl' : ∀ t, t < x'.length → isPrefixCh marker ((x' ++ rest).drop t) = false := by
        intro t ht
        have := hcl (t + 1) (by simp; omega)
        simpa using this
      rw [ih rest f hcl' (by simp only [List.length_cons] at hfuel; omega)]
      have harith : f + 1 - (ch :: x').length = f - x'.length := by
        simp only [List.length_cons]
        omega
      rw [harith]
      rfl

/-- C6 (amended claim): when the marker occurs exactly twice in the
document — one delimited block and no stray marker — `getAlbumDetails`
hands the parser exactly the content of that first (and only) block.  The
counterexample theorem shows this fails with more occurrences: the greedy
regular expression spans from the first to the last occurrence. -/
theorem frontMatterText_single_block (content : String) (i j : Nat)
    (hocc : occIdx content.toList = [i, j]) (hij : i + 3 ≤ j) :
    frontMatterText content =
      some (String.mk ((content.toList.drop (i + 3)).take (j - (i + 3)))) ∧
    frontMatterText content = firstBlockText content := by
  have hmi : markerAt content.toList i = true :=
    (occIdx_mem content.toList i).mp (by rw [hocc]; simp)
  have hmj : markerAt content.toList j = true :=
    (occIdx_mem content.toList j).mp (by rw [hocc]; simp)
  have honly : ∀ t, markerAt content.toList t = true → t = i ∨ t = j := by
    intro t ht
    have hmem := (occIdx_mem content.toList t).mpr ht
    rw [hocc] at hmem
    simpa using hmem
  obtain ⟨restI, hRestI⟩ := isPrefixCh_exists marker (content.toList.drop i) hmi
  obtain ⟨restJ, hRestJ⟩ := isPrefixCh_exists marker (content.toList.drop j) hmj
  have hjb : j + 3 ≤ content.toList.length := markerAt_bound content.toList j hmj
  have hlenI : restI.length = content.toList.length - i - 3 := by
    have h1 : (content.toList.drop i).length = content.toList.length - i :=
      List.length_drop i content.toList
    rw [hRestI] at h1
    simp only [List.length_append, marker, List.length_cons, List.length_nil] at h1
    omega
  have hdropI3 : content.toList.drop (i + 3) = restI := by
    have h1 : content.toList.drop (i + 3) = (content.toList.drop i).drop 3 := by
      rw [List.drop_drop]
    rw [h1, hRestI]
    rfl
  have hdropJ : restI.drop (j - (i + 3)) = marker ++ restJ := by
    rw [← hdropI3, List.drop_drop]
    have hE : ∀ n : Nat, n = j → content.toList.drop n = marker ++ restJ :=
      fun n hn => hn ▸ hRestJ
    exact hE _ (by omega)
  have hmidlen : ((content.toList.drop (i + 3)).take (j - (i + 3))).length = j - (i + 3) := by
    rw [List.length_take, List.length_drop]
    omega
  have hsplit : restI = ((content.toList.drop (i + 3)).take (j - (i + 3))) ++
      (marker ++ restJ) := by
    rw [← hdropJ, ← hdropI3]
    exact (List.take_append_drop _ _).symm
  have hMidMarker : ((content.toList.drop (i + 3)).take (j - (i + 3))) ++ marker =
      restI.take (j - i) := by
    rw [hsplit, List.take_append_eq_append_take]
    have h3 : ((content.toList.drop (i + 3)).take (j - (i + 3))).take (j - i) =
        (content.toList.drop (i + 3)).take (j - (i + 3)) :=
      List.take_of_length_le (by rw [hmidlen]; omega)
    have h4 : j - i - ((content.toList.drop (i + 3)).take (j - (i + 3))).length = 3 := by
      rw [hmidlen]
      omega
    rw [h3, h4, List.take_append_eq_append_take]
    have h5 : marker.take 3 = marker := List.take_of_length_le (by simp [marker])
    have h6 : (3 : Nat) - marker.length = 0 := by simp [marker]
    rw [h5, h6, List.take_zero, List.append_nil]
  have hslice : (content.toList.drop i).take (j + 3 - i) =
      marker ++ (((content.toList.drop (i + 3)).take (j - (i + 3))) ++ marker) := by
    rw [hRestI, List.take_append_eq_append_take]
    have h1 : marker.take (j + 3 - i) = marker :=
      List.take_of_length_le (by simp [marker]; omega)
    have h2 : j + 3 - i - marker.length = j - i := by simp [marker]; omega
    rw [h1, h2, hMidMarker]
  have hclean : ∀ t, t < ((content.toList.drop (i + 3)).take (j - (i + 3))).length →
      isPrefixCh marker (((((content.toList.drop (i + 3)).take (j - (i + 3)))) ++
        marker).drop t) = false := by
    intro t ht
    rw [hmidlen] at ht
    by_contra hcon
    rw [Bool.not_eq_false] at hcon
    have e2 : restI.drop t = content.toList.drop (i + 3 + t) := by
      rw [← hdropI3, List.drop_drop]
    have e1 : ((((content.toList.drop (i + 3)).take (j - (i + 3)))) ++ marker).drop t =
        (content.toList.drop (i + 3 + t)).take (j - i - t) := by
      rw [hMidMarker, List.drop_take, e2]
    rw [e1, isPrefixCh_take marker _ _ (by simp [marker]; omega)] at hcon
    have hcon' : markerAt content.toList (i + 3 + t) = true := hcon
    rcases honly (i + 3 + t) hcon' with h | h
    · omega
    · omega
  have hstrip : stripMarkers (((content.toList.drop (i + 3)).take (j - (i + 3))).length + 6)
      (marker ++ (((content.toList.drop (i + 3)).take (j - (i + 3))) ++ marker)) =
      (content.toList.drop (i + 3)).take (j - (i + 3)) := by
    rw [(by omega : ((content.toList.drop (i + 3)).take (j - (i + 3))).length + 6 =
      (((content.toList.drop (i + 3)).take (j - (i + 3))).length + 5) + 1)]
    rw [stripMarkers_marker_cons]
    rw [stripMarkers_clean _ marker _ hclean (by simp [marker])]
    have h5 : ((content.toList.drop (i + 3)).take (j - (i + 3))).length + 5 -
        ((content.toList.drop (i + 3)).take (j - (i + 3))).length = 5 := by omega
    rw [h5]
    have h6 : stripMarkers 5 marker = [] := by decide
    rw [h6, List.append_nil]
  have hregex : frontMatterRegexMatch content.toList =
      some (marker ++ (((content.toList.drop (i + 3)).take (j - (i + 3))) ++ marker)) := by
    unfold frontMatterRegexMatch
    rw [hocc]
    show (if i + 3 ≤ j then
        some ((content.toList.drop i).take (j + 3 - i)) else none) = _
    rw [if_pos hij, hslice]
  have hmain : frontMatterText content =
      some (String.mk ((content.toList.drop (i + 3)).take (j - (i + 3)))) := by
    unfold frontMatterText
    rw [hregex]
    simp only [Option.map_some']
    congr 1
    have hlen : (marker ++ (((content.toList.drop (i + 3)).take (j - (i + 3))) ++
        marker)).length = ((content.toList.drop (i + 3)).take (j - (i + 3))).length + 6 := by
      simp [marker]
    rw [hlen, hstrip]
  refine ⟨hmain, ?_⟩
  rw [hmain]
  unfold firstBlockText
  rw [hocc]
  show _ = (match ([j].filter (fun t => decide (i + 3 ≤ t))).head? with
    | some j' => some (String.mk ((content.toList.drop (i + 3)).take (j' - (i + 3))))
    | none => none)
  rw [List.filter_cons_of_pos (by simpa using hij)]
  rfl

theorem frontMatterText_single_block_witness :
    frontMatterText "+++\na = 1\n+++\nbody" =
      some (String.mk (("+++\na = 1\n+++\nbody".toList.drop (0 + 3)).take (10 - (0 + 3)))) ∧
    frontMatterText "+++\na = 1\n+++\nbody" = firstBlockText "+++\na = 1\n+++\nbody" :=
  frontMatterText_single_block "+++\na = 1\n+++\nbody" 0 10 (by decide) (by decide)

/-- C6 counterexample: on a document holding two delimited blocks, the text
`getAlbumDetails` hands to the parser spans from the first marker to the
last one, contains the second block's text `b = 2` — text outside the
first block — and differs from the first block's content. -/
theorem getAlbumDetails_multiblock_counterexample :
    frontMatterText "+++\na = 1\n+++\n+++\nb = 2\n+++\n" = some "\na = 1\n\n\nb = 2\n" ∧
    firstBlockText "+++\na = 1\n+++\n+++\nb = 2\n+++\n" = some "\na = 1\n" ∧
    frontMatterText "+++\na = 1\n+++\n+++\nb = 2\n+++\n" ≠
      firstBlockText "+++\na = 1\n+++\n+++\nb = 2\n+++\n" ∧
    strIncludes "\na = 1\n\n\nb = 2\n" "b = 2" = true := by
  refine ⟨by decide, by decide, by decide, by decide⟩

/-! ## C9: `buildTomlFrontMatter` composed with `getExifData` -/

/-- C9 (amended claim): for a photo file whose embedded metadata carries
title `T`, a capture date normalising to `2020-08-29` and containing-album
name `A`, the composition produces exactly the three-line front matter; no
`tags` line is ever emitted by this composition — `getExifData` extracts
only `title`, `date` and `albumname` (see the counterexample theorem for a
caption with hashtags). -/
theorem getExifData_buildToml_roundtrip (file : ExifFile) (dt : String)
    (hmeta : file.hasMetadata = true)
    (htitle : file.imageDescription = some "T")
    (hdt : file.dateTime = some dt)
    (hdate : substringDate dt = "2020-08-29")
    (halbum : basename (dirname file.path) = "A") :
    Except.map buildTomlFrontMatter (getExifData file) =
      Except.ok "+++\ntitle = \"T\"\ndate = \"2020-08-29\"\nalbumname = \"A\"\n+++\n" := by
  simp only [getExifData, hmeta, htitle, hdt, hdate, halbum]
  rfl

theorem getExifData_buildToml_roundtrip_witness :
    Except.map buildTomlFrontMatter (getExifData
        ⟨"albums/A/x.jpg", true, some "T", some "2020:08:29 10:00:00"⟩) =
      Except.ok "+++\ntitle = \"T\"\ndate = \"2020-08-29\"\nalbumname = \"A\"\n+++\n" :=
  getExifData_buildToml_roundtrip
    ⟨"albums/A/x.jpg", true, some "T", some "2020:08:29 10:00:00"⟩
    "2020:08:29 10:00:00" rfl rfl rfl (by decide) (by decide)

/-- C9 counterexample: for a photo file whose embedded description carries
the hashtags `#diy #proud`, the composition still emits only the three
`title`/`date`/`albumname` lines: the hashtags remain inside the title
value and no `tags` line in array-of-strings form appears anywhere in the
output, contrary to the claim's "additional tags line" clause. -/
theorem buildToml_no_tags_line :
    Except.map buildTomlFrontMatter (getExifData
        ⟨"albums/A/x.jpg", true, some "Great day #diy #proud",
          some "2020:08:29 10:00:00"⟩) =
      Except.ok
        "+++\ntitle = \"Great day #diy #proud\"\ndate = \"2020-08-29\"\nalbumname = \"A\"\n+++\n" ∧
    getTags "Great day #diy #proud" true = ["diy", "proud"] ∧
    strIncludes
      "+++\ntitle = \"Great day #diy #proud\"\ndate = \"2020-08-29\"\nalbumname = \"A\"\n+++\n"
      "tags = [" = false := by
  refine ⟨by rfl, by decide, by decide⟩

end GalleryUtils
